import Mathlib

/-
Verification of the query-document compiler and validator of
`packages/client/src/runtime/query.ts`.

The development is a shallow embedding of that file:

* JavaScript runtime values (the untyped selection values and argument
  values the compiler consumes) are the inductive `JsValue`.  JavaScript
  numbers are split into `int` (integer-valued numbers, which the runtime
  classifies as `Int`) and `float` (every other number); rich runtime
  objects that the compiler only ever classifies (Date, Decimal, Buffer,
  object-enum markers, field references) are dedicated constructors.
* The DMMF schema descriptor is embedded as finite trees (`InputType`,
  `SchemaArg`, `OutputType`, ...).  The runtime schema is a cyclic object
  graph; every terminating compilation only explores a finite part of it,
  which a finite tree can describe, so theorems below quantify over tree
  schemas.
* The compiled tree model (`Document`, `Field`, `Args`, `Arg`) mirrors the
  classes of the source.  Derived validity flags (`hasInvalidChild`,
  `hasInvalidArg`, `hasError`) are computed by the constructors in the
  source from the stored data only, so they are embedded as functions of
  the stored data.
* The union-scoring comparison of `valueToArg` compares floating point
  numbers built from `Math.exp`/`Math.log`.  An exact executable embedding
  of that comparison does not exist, so the comparison is threaded through
  the compiler as an oracle parameter `scoreLt`; theorems that depend on
  the scoring take the hypothesis that the oracle agrees with the real
  ordering of the (real-valued) scores, and theorems that do not depend on
  it hold for every oracle.
* Helpers imported from modules that are not part of this file
  (`getGraphQLType`, `getSuggestion`, `unionBy`, `deepExtend`, `omit`,
  `isObject`, the result deserializers, ...) are modelled from the
  specification; each such definition carries a doc comment starting with
  `Modelled from the spec:`.
* Where the JavaScript code would throw a `TypeError` (calling `.map` on a
  non-array, reading `.fields` of a scalar type name), the embedding
  produces an explicit `crash` marker value instead of unwinding; the
  contents the model computes after a crash marker have no JavaScript
  counterpart.
-/

namespace Query

/-- JavaScript runtime values as consumed by the compiler. -/
inductive JsValue where
  | undef
  | null
  | bool (b : Bool)
  | int (n : Int)
  | float
  | str (s : String)
  | uuidStr (s : String)
  | bigintV
  | decimalObj
  | bytes
  | date (valid : Bool)
  | symbolV
  | objectEnum (name : String)
  | fieldRef (name : String)
  | list (elems : List JsValue)
  | obj (fields : List (String × JsValue))
  | deserialized (kind : String) (raw : JsValue)

namespace JsValue

/-- JavaScript truthiness (`if (value)` and `Boolean(value)`). `float`
stands for a non-integer number, hence nonzero and truthy; the model does
not contain NaN. -/
def truthy : JsValue → Bool
  | undef => false
  | null => false
  | bool b => b
  | int n => n != 0
  | str s => s ≠ ""
  | _ => true

/-- The test `typeof value === 'object'` of JavaScript. -/
def typeofObject : JsValue → Bool
  | null => true
  | list _ => true
  | obj _ => true
  | date _ => true
  | decimalObj => true
  | bytes => true
  | objectEnum _ => true
  | fieldRef _ => true
  | _ => false

def isUndef : JsValue → Bool
  | undef => true
  | _ => false

def isNull : JsValue → Bool
  | null => true
  | _ => false

/-- The test `Array.isArray(value)`. -/
def isArray : JsValue → Bool
  | list _ => true
  | _ => false

/-- The test `typeof value === 'boolean'`. -/
def isBoolean : JsValue → Bool
  | bool _ => true
  | _ => false

/-- Strict equality with the literal `false`. -/
def isFalseLit : JsValue → Bool
  | bool false => true
  | _ => false

/-- Property read `value[key]` for a string key: a key of an object, and
`undefined` on everything else (property reads on primitives and arrays
with non-index string keys yield `undefined`; reads on `null`/`undefined`
would throw in JavaScript but are never reached with them here). -/
def get : JsValue → String → JsValue
  | obj fs, k =>
    match fs.find? (fun p => p.1 = k) with
    | some p => p.2
    | none => undef
  | _, _ => undef

/-- Index/element pairs of an array as `Object.entries` enumerates them. -/
def entriesIdx (i : Nat) : List JsValue → List (String × JsValue)
  | [] => []
  | x :: xs => (toString i, x) :: entriesIdx (i + 1) xs

/-- The enumeration `Object.entries(value)`: key/value pairs of an object,
index/element pairs of an array, and `[]` on primitives. -/
def entries : JsValue → List (String × JsValue)
  | obj fs => fs
  | list xs => entriesIdx 0 xs
  | _ => []

/-- The enumeration `Object.keys(value)`. -/
def keys (v : JsValue) : List String := v.entries.map Prod.fst

/-- The enumeration `Object.values(value)`. -/
def values (v : JsValue) : List JsValue := v.entries.map Prod.snd

end JsValue

mutual

/-- Structural size of a `JsValue`; `undefined` weighs zero so that the
synthetic `undefined` entries `objectToArgs` adds for absent arguments are
smaller than any present container. -/
def jsSize : JsValue → Nat
  | .list xs => 1 + jsSizeList xs
  | .obj fs => 1 + jsSizeFields fs
  | .undef => 0
  | _ => 1

def jsSizeList : List JsValue → Nat
  | [] => 0
  | x :: xs => 1 + jsSize x + jsSizeList xs

def jsSizeFields : List (String × JsValue) → Nat
  | [] => 0
  | (_, v) :: fs => 1 + jsSize v + jsSizeFields fs

end

theorem jsSizeList_mem_le {x : JsValue} {xs : List JsValue} (h : x ∈ xs) :
    jsSize x + 1 ≤ jsSizeList xs := by
  induction xs with
  | nil => cases h
  | cons y ys ih =>
    rcases List.mem_cons.mp h with rfl | h'
    · simp [jsSizeList]; omega
    · have := ih h'
      simp [jsSizeList]; omega

theorem jsSizeFields_mem_le {k : String} {v : JsValue}
    {fs : List (String × JsValue)} (h : (k, v) ∈ fs) :
    jsSize v + 1 ≤ jsSizeFields fs := by
  induction fs with
  | nil => cases h
  | cons p ps ih =>
    rcases List.mem_cons.mp h with h0 | h'
    · cases h0
      simp [jsSizeFields]
      omega
    · have := ih h'
      cases p
      simp [jsSizeFields]
      omega

theorem jsSizeFields_filter_le (p : String × JsValue → Bool)
    (fs : List (String × JsValue)) :
    jsSizeFields (fs.filter p) ≤ jsSizeFields fs := by
  induction fs with
  | nil => simp [jsSizeFields]
  | cons q qs ih =>
    by_cases h : p q
    · cases q
      simp [List.filter, h, jsSizeFields]
      omega
    · cases q
      simp [List.filter, h, jsSizeFields]
      omega

/-- Locations of schema types in the DMMF descriptor. -/
inductive FieldLocation where
  | scalar
  | enumTypes
  | inputObjectTypes
  | outputObjectTypes
  | fieldRefTypes
deriving DecidableEq

/-- Cardinality constraints of an input object type. -/
structure Constraints where
  minNumFields : Option Int
  maxNumFields : Option Int
  fields : Option (List String)

mutual

/-- The `type` of a `DMMF.SchemaArgInputType`: a scalar name, an enum, or
an input object type. -/
inductive ArgType where
  | scalarT (name : String)
  | enumT (name : String) (values : List String)
  | inputT (t : InputType)

/-- A `DMMF.InputType`. -/
inductive InputType where
  | mk (name : String) (constraints : Constraints)
      (metaSource : Option String) (fields : List SchemaArg)

/-- A `DMMF.SchemaArg`. -/
inductive SchemaArg where
  | mk (name : String) (isRequired : Bool) (isNullable : Bool)
      (inputTypes : List SchemaArgInputType)

/-- A `DMMF.SchemaArgInputType`. -/
inductive SchemaArgInputType where
  | mk (isList : Bool) (location : FieldLocation) (type : ArgType)

end

def InputType.name : InputType → String
  | .mk n _ _ _ => n

def InputType.constraints : InputType → Constraints
  | .mk _ c _ _ => c

def InputType.metaSource : InputType → Option String
  | .mk _ _ m _ => m

def InputType.fields : InputType → List SchemaArg
  | .mk _ _ _ fs => fs

def SchemaArg.name : SchemaArg → String
  | .mk n _ _ _ => n

def SchemaArg.isRequired : SchemaArg → Bool
  | .mk _ r _ _ => r

def SchemaArg.isNullable : SchemaArg → Bool
  | .mk _ _ n _ => n

def SchemaArg.inputTypes : SchemaArg → List SchemaArgInputType
  | .mk _ _ _ ts => ts

def SchemaArgInputType.isList : SchemaArgInputType → Bool
  | .mk l _ _ => l

def SchemaArgInputType.location : SchemaArgInputType → FieldLocation
  | .mk _ l _ => l

def SchemaArgInputType.type : SchemaArgInputType → ArgType
  | .mk _ _ t => t

/-- The source's `isInputArgType`: `typeof argType === 'string'` rules out
scalars and the `values` property rules out enums. -/
def isInputArgType : ArgType → Bool
  | .scalarT _ => false
  | .enumT _ _ => false
  | .inputT _ => true

mutual

/-- The `type` of a `DMMF.SchemaField.outputType`. -/
inductive OutTy where
  | objT (t : OutputType)
  | scalarName (name : String)
  | enumName (name : String)

/-- A `DMMF.OutputType`. -/
inductive OutputType where
  | mk (name : String) (fields : List SchemaField)

/-- A `DMMF.SchemaField`, including its `outputType` record. -/
inductive SchemaField where
  | mk (name : String) (args : List SchemaArg) (isList : Bool)
      (location : FieldLocation) (namesp : Option String) (type : OutTy)

end

def OutputType.name : OutputType → String
  | .mk n _ => n

def OutputType.fields : OutputType → List SchemaField
  | .mk _ fs => fs

def SchemaField.name : SchemaField → String
  | .mk n _ _ _ _ _ => n

def SchemaField.args : SchemaField → List SchemaArg
  | .mk _ a _ _ _ _ => a

def SchemaField.outIsList : SchemaField → Bool
  | .mk _ _ l _ _ _ => l

def SchemaField.location : SchemaField → FieldLocation
  | .mk _ _ _ l _ _ => l

def SchemaField.namesp : SchemaField → Option String
  | .mk _ _ _ _ ns _ => ns

def SchemaField.outType : SchemaField → OutTy
  | .mk _ _ _ _ _ t => t

/-- Fields of the object behind a `field.outputType.type as DMMF.OutputType`
cast.  On a scalar name the JavaScript read `outputType.fields` yields
`undefined` and iterating it would throw; that malformed-schema corner is
modelled as the empty field list. -/
def OutTy.fieldsOf : OutTy → List SchemaField
  | .objT t => t.fields
  | _ => []

/-- Name of an output type behind the cast (`(f.outputType.type).name`);
`undefined` (modelled as `""`) on scalar/enum names, which never occur in
`dmmf.typeMap`. -/
def OutTy.objName : OutTy → Option String
  | .objT t => some t.name
  | _ => none

/-- The part of `DMMFHelper` the compiler reads: the two root types and the
set of keys of `typeMap` (the composite type names). -/
structure DMMFHelper where
  queryType : OutputType
  mutationType : OutputType
  typeNames : List String

/-- Field-level errors (`InvalidFieldError` of `error-types`), restricted to
the data the compiler stores. -/
inductive InvalidFieldError where
  | invalidFieldName (modelName : String) (providedName : String)
      (didYouMean : Option String) (outputType : OutTy)
      (isInclude : Bool) (isIncludeScalar : Bool)
  | invalidFieldType (modelName : String) (fieldName : String)
      (providedValue : JsValue)
  | emptySelect (field : SchemaField)
  | emptyInclude (field : SchemaField)
  | noTrueSelect (field : SchemaField)
  | includeAndSelect (field : SchemaField)

/-- The `requiredType` payload of an `invalidType` error. -/
structure RequiredType where
  inputType : List SchemaArgInputType
  bestFittingType : SchemaArgInputType

/-- Argument-level errors (`InvalidArgError` of `error-types`). -/
inductive InvalidArgError where
  | invalidName (providedName : String) (providedValue : JsValue)
      (didYouMeanField : Option String) (didYouMeanArg : Option String)
      (originalType : InputType) (possibilities : Option (List SchemaArgInputType))
      (outputType : Option OutputType)
  | invalidType (providedValue : JsValue) (argName : String)
      (requiredType : RequiredType)
  | invalidNullArg (name : String) (invalidType : List SchemaArgInputType)
      (atLeastOne : Bool) (atMostOne : Bool)
  | invalidDateArg (argName : String)
  | missingArg (missingName : String) (missingArg : SchemaArg)
      (atLeastOne : Bool) (atMostOne : Bool)
  | atLeastOne (key : String) (inputType : InputType)
      (atLeastFields : Option (List String))
  | atMostOne (key : String) (inputType : InputType)
      (providedKeys : List String)

/-- Discriminator of an argument error, the source's `error.type` string. -/
def InvalidArgError.kind : InvalidArgError → String
  | .invalidName .. => "invalidName"
  | .invalidType .. => "invalidType"
  | .invalidNullArg .. => "invalidNullArg"
  | .invalidDateArg .. => "invalidDateArg"
  | .missingArg .. => "missingArg"
  | .atLeastOne .. => "atLeastOne"
  | .atMostOne .. => "atMostOne"

/-- Discriminator of a field error. -/
def InvalidFieldError.kind : InvalidFieldError → String
  | .invalidFieldName .. => "invalidFieldName"
  | .invalidFieldType .. => "invalidFieldType"
  | .emptySelect _ => "emptySelect"
  | .emptyInclude _ => "emptyInclude"
  | .noTrueSelect _ => "noTrueSelect"
  | .includeAndSelect _ => "includeAndSelect"

/-- One component of a collected error path.  The source paths have type
`Array<string | number>`: the distinction between the string `"0"` and the
number `0` is meaningful under strict equality. -/
inductive PathKey where
  | str (s : String)
  | num (n : Nat)
deriving DecidableEq

mutual

/-- The `Arg` class: a compiled argument. -/
inductive Arg where
  | mk (key : String) (value : ArgValue) (isEnum : Bool)
      (error : Option InvalidArgError) (schemaArg : Option SchemaArg)
      (inputType : Option SchemaArgInputType)

/-- The value stored in an `Arg`: a plain JavaScript value, a nested
`Args`, or an array whose elements are plain values, `Arg`s or `Args`.
`crash` marks a state in which the JavaScript code would have thrown a
`TypeError` (`value.map` on a non-array, `fields` of a scalar type). -/
inductive ArgValue where
  | raw (v : JsValue)
  | argsV (a : Args)
  | listV (elems : List ArgElem)
  | crash

/-- An element of an array-valued `Arg`. -/
inductive ArgElem where
  | rawE (v : JsValue)
  | argE (a : Arg)
  | argsE (a : Args)

/-- The `Args` class: an ordered argument list. -/
inductive Args where
  | mk (args : List Arg)

end

def Arg.key : Arg → String
  | .mk k _ _ _ _ _ => k

def Arg.value : Arg → ArgValue
  | .mk _ v _ _ _ _ => v

def Arg.isEnum : Arg → Bool
  | .mk _ _ e _ _ _ => e

def Arg.error : Arg → Option InvalidArgError
  | .mk _ _ _ e _ _ => e

def Arg.schemaArg : Arg → Option SchemaArg
  | .mk _ _ _ _ s _ => s

def Arg.inputType : Arg → Option SchemaArgInputType
  | .mk _ _ _ _ _ t => t

def Args.args : Args → List Arg
  | .mk l => l

/-- The `Arg` constructor.  An `ObjectEnumValue` value is replaced by its
name (`value instanceof ObjectEnumValue ? value._getName() : value`); the
derived `hasError`/`isNullable` members are functions below. -/
def Arg.make (key : String) (value : ArgValue) (isEnum : Bool)
    (error : Option InvalidArgError) (schemaArg : Option SchemaArg)
    (inputType : Option SchemaArgInputType) : Arg :=
  let value := match value with
    | .raw (.objectEnum n) => .raw (.str n)
    | v => v
  .mk key value isEnum error schemaArg inputType

mutual

/-- The derived member `Arg.hasError`, computed by the source constructor:
an own error, or an invalid nested `Args`, or an array element that is an
invalid `Args`/`Arg`. -/
def Arg.hasError : Arg → Bool
  | .mk _ value _ error _ _ => error.isSome || ArgValue.anyError value

def ArgValue.anyError : ArgValue → Bool
  | .argsV a => a.hasInvalidArg
  | .listV elems => ArgElem.anyErrorList elems
  | .crash => true
  | .raw _ => false

def ArgElem.anyErrorList : List ArgElem → Bool
  | [] => false
  | .argsE a :: es => a.hasInvalidArg || ArgElem.anyErrorList es
  | .argE a :: es => a.hasError || ArgElem.anyErrorList es
  | .rawE _ :: es => ArgElem.anyErrorList es

/-- The derived member `Args.hasInvalidArg`: OR of `hasError` over the
argument list. -/
def Args.hasInvalidArg : Args → Bool
  | .mk args => Args.anyHasError args

def Args.anyHasError : List Arg → Bool
  | [] => false
  | a :: rest => a.hasError || Args.anyHasError rest

end

/-- A collected argument-level error with its structural path. -/
structure ArgErrorRec where
  path : List PathKey
  error : InvalidArgError
  id : Option String

/-- A collected field-level error with its structural path. -/
structure FieldErrorRec where
  path : List PathKey
  error : InvalidFieldError

mutual

/-- The method `Arg.collectErrors`. -/
def Arg.collectErrors : Arg → List ArgErrorRec
  | a@(.mk key value _ error _ inputType) =>
    if !a.hasError then []
    else
      let errors : List ArgErrorRec :=
        match error with
        | some e =>
          let id : Option String :=
            match inputType with
            | some it =>
              match it.type with
              | .inputT t => some (t.name ++ (if it.isList then "[]" else ""))
              | _ => none
            | none => none
          [⟨[.str key], e, id⟩]
        | none => []
      match value with
      | .listV elems => errors ++ ArgElem.collectList key 0 elems
      | .argsV (.mk inner) =>
        errors ++ (Args.collectErrorsList inner).map
          (fun e => { e with path := .str key :: e.path })
      | _ => errors

/-- The `flatMap` over the elements of an array-valued `Arg` in
`Arg.collectErrors`; the element index is appended as `String(index)`. -/
def ArgElem.collectList (key : String) (index : Nat) :
    List ArgElem → List ArgErrorRec
  | [] => []
  | .argsE (.mk inner) :: es =>
    (Args.collectErrorsList inner).map
        (fun e => { e with path := .str key :: .str (toString index) :: e.path })
      ++ ArgElem.collectList key (index + 1) es
  | .argE a :: es =>
    a.collectErrors.map (fun e => { e with path := .str key :: e.path })
      ++ ArgElem.collectList key (index + 1) es
  | .rawE _ :: es => ArgElem.collectList key (index + 1) es

/-- The method `Args.collectErrors` without its `hasInvalidArg` guard. -/
def Args.collectErrorsList : List Arg → List ArgErrorRec
  | [] => []
  | a :: rest => a.collectErrors ++ Args.collectErrorsList rest

end

/-- The method `Args.collectErrors` (with its early-return guard). -/
def Args.collectErrors (a : Args) : List ArgErrorRec :=
  if !a.hasInvalidArg then [] else Args.collectErrorsList a.args

/-- The `Field` class. -/
inductive Field where
  | mk (name : String) (args : Option Args) (children : Option (List Field))
      (error : Option InvalidFieldError) (schemaField : Option SchemaField)

def Field.name : Field → String
  | .mk n _ _ _ _ => n

def Field.args : Field → Option Args
  | .mk _ a _ _ _ => a

def Field.children : Field → Option (List Field)
  | .mk _ _ c _ _ => c

def Field.error : Field → Option InvalidFieldError
  | .mk _ _ _ e _ => e

def Field.schemaField : Field → Option SchemaField
  | .mk _ _ _ _ s => s

/-- The derived member `Field.hasInvalidArg`, computed by the constructor. -/
def Field.hasInvalidArg : Field → Bool
  | .mk _ args _ _ _ =>
    match args with
    | some a => a.hasInvalidArg
    | none => false

mutual

/-- The derived member `Field.hasInvalidChild`, computed by the constructor:
some child has an own error, an invalid argument, or an invalid child. -/
def Field.hasInvalidChild : Field → Bool
  | .mk _ _ children _ _ =>
    match children with
    | some cs => Field.anyInvalidChild cs
    | none => false

def Field.anyInvalidChild : List Field → Bool
  | [] => false
  | c :: cs =>
    (c.error.isSome || c.hasInvalidArg || c.hasInvalidChild)
      || Field.anyInvalidChild cs

end

mutual

/-- The method `Field.collectErrors`: own error, then the children's errors
prefixed with the field name and the descent keyword, then the argument
errors prefixed with the field name. -/
def Field.collectErrors (pfx : String) : Field →
    List FieldErrorRec × List ArgErrorRec
  | .mk name args children error _ =>
    let own : List FieldErrorRec :=
      match error with
      | some e => [⟨[.str name], e⟩]
      | none => []
    let fromChildren :=
      match children with
      | some cs => Field.collectChildren pfx name cs
      | none => ([], [])
    let fromArgs : List ArgErrorRec :=
      match args with
      | some a => a.collectErrors.map (fun e => { e with path := .str name :: e.path })
      | none => []
    (own ++ fromChildren.1, fromChildren.2 ++ fromArgs)

def Field.collectChildren (pfx : String) (name : String) :
    List Field → List FieldErrorRec × List ArgErrorRec
  | [] => ([], [])
  | c :: cs =>
    let errs := c.collectErrors pfx
    let rest := Field.collectChildren pfx name cs
    ((errs.1.map fun e => { e with path := .str name :: .str pfx :: e.path }) ++ rest.1,
     (errs.2.map fun e => { e with path := .str name :: .str pfx :: e.path }) ++ rest.2)

end

/-- Operation kind of a document, the source's `'query' | 'mutation'`. -/
inductive OpKind where
  | query
  | mutation
deriving DecidableEq

/-- The `Document` class. -/
structure Document where
  type : OpKind
  children : List Field

/-- The throw decision of `Document.validate`: the error is raised exactly
when the list of direct children with `hasInvalidChild || hasInvalidArg` is
nonempty (the rendering that follows only builds the message). -/
def Document.validateRaises (d : Document) : Bool :=
  (d.children.filter (fun c => c.hasInvalidChild || c.hasInvalidArg)).length != 0

/-- The method `Document.normalizePath`: walks the collected path alongside
the original selection value, skipping a numeric key `0` when the current
pointer is not an array, and re-routing a `select` step to `include` when
the pointer has no truthy `select` property. -/
def normalizePath (inputPath : List PathKey) (select : JsValue) : List PathKey :=
  go inputPath select
where
  /-- Property read `pointer[key]` for a path key. -/
  readKey (pointer : JsValue) : PathKey → JsValue
    | .str s => pointer.get s
    | .num n =>
      match pointer with
      | .list xs => (xs.get? n).getD .undef
      | _ => pointer.get (toString n)
  go : List PathKey → JsValue → List PathKey
    | [], _ => []
    | key :: rest, pointer =>
      if !pointer.isArray && key = .num 0 then go rest pointer
      else
        let pointer' :=
          if key = .str "select" then
            if !(readKey pointer key).truthy then pointer.get "include"
            else readKey pointer key
          else if pointer.truthy && (readKey pointer key).truthy then
            readKey pointer key
          else pointer
        key :: go rest pointer'

mutual

/-- Claim-side notion of an error anywhere in a field subtree: an own
error, an argument error anywhere below the field's argument list, or an
error anywhere in a child subtree. -/
def Field.subtreeHasError : Field → Bool
  | .mk _ args children error _ =>
    error.isSome
      || (match args with
          | some a => a.hasInvalidArg
          | none => false)
      || (match children with
          | some cs => Field.anySubtreeHasError cs
          | none => false)

def Field.anySubtreeHasError : List Field → Bool
  | [] => false
  | c :: cs => c.subtreeHasError || Field.anySubtreeHasError cs

end

/-- Claim-side notion of an error anywhere in a document. -/
def Document.treeHasError (d : Document) : Bool :=
  Field.anySubtreeHasError d.children

/-- Claim-side notion of an error strictly below a root field: an error
anywhere in a child subtree, or anywhere among the field's arguments — the
field's own error marker does not count. -/
def Field.errorBelow (f : Field) : Bool :=
  (match f.children with
   | some cs => Field.anySubtreeHasError cs
   | none => false) || f.hasInvalidArg

/-- The ambient `MakeDocumentContext`. -/
structure MakeDocumentContext where
  modelName : Option String

/-- Modelled from the spec: `stringifyGraphQLType` of `utils/common` — the
type itself when it is a scalar name, otherwise the declared type's name. -/
def stringifyGraphQLType : ArgType → String
  | .scalarT n => n
  | .enumT n _ => n
  | .inputT t => t.name

/-- Modelled from the spec: `wrapWithList` of `utils/common` — wraps a type
name in the list form used by the inferred-kind strings. -/
def wrapWithList (s : String) (isList : Bool) : String :=
  if isList then "List<" ++ s ++ ">" else s

/-- The source's `getExpectedType`: the stringified declared type, with the
ambient model name appended for field-reference types, wrapped as a list
according to `isList`. -/
def getExpectedType (inputType : SchemaArgInputType) (context : MakeDocumentContext)
    (isList : Bool) : String :=
  let type := stringifyGraphQLType inputType.type
  let type :=
    match inputType.location, context.modelName with
    | .fieldRefTypes, some m => type ++ "<" ++ m ++ ">"
    | _, _ => type
  wrapWithList type isList

/-- The `join(' | ')` of the element-kind union of an inferred
`List<...>` kind. -/
def joinSep : List String → String
  | [] => ""
  | [m] => m
  | m :: ms => m ++ " | " ++ joinSep ms

/-- Keeps the first occurrence of every string, in order (the `reduce` with
an `includes` test used to build the element-kind union of an inferred
`List<...>` kind). -/
def dedupKeepFirst (l : List String) : List String :=
  go [] l
where
  go (acc : List String) : List String → List String
    | [] => acc
    | x :: xs => go (if acc.contains x then acc else acc ++ [x]) xs

mutual

/-- Modelled from the spec: `getGraphQLType` of `utils/common`, the
inferred primitive kind of a provided value.  Integer-valued numbers are
`Int`, other numbers `Float`; rich runtime objects carry their kind; a
string is an `UUID` when it looks like an identifier, the matching enum
kind when checked against an enum type that lists it, and `String`
otherwise; arrays show the deduplicated union of their element kinds. -/
def getGraphQLType (v : JsValue) (inputType : Option SchemaArgInputType) : String :=
  match v with
  | .null => "null"
  | .undef => "undefined"
  | .bool _ => "Boolean"
  | .int _ => "Int"
  | .float => "Float"
  | .bigintV => "BigInt"
  | .decimalObj => "Decimal"
  | .bytes => "Bytes"
  | .date _ => "DateTime"
  | .uuidStr _ => "UUID"
  | .symbolV => "Symbol"
  | .objectEnum _ => "object"
  | .fieldRef _ => "object"
  | .obj _ => "object"
  | .deserialized _ _ => "object"
  | .str s =>
    match inputType with
    | some it =>
      match it.location, it.type with
      | .enumTypes, .enumT n vals => if s ∈ vals then n else "String"
      | _, _ => "String"
    | none => "String"
  | .list xs =>
    "List<" ++ joinSep (dedupKeepFirst (getGraphQLTypeList xs inputType)) ++ ">"

def getGraphQLTypeList : List JsValue → Option SchemaArgInputType → List String
  | [], _ => []
  | v :: vs, inputType => getGraphQLType v inputType :: getGraphQLTypeList vs inputType

end

/-- The source's `isDecimalString`: full match of the pattern
`^\-?(\d+(\.\d*)?|\.\d+)(e[+-]?\d+)?$` (case-insensitive). -/
def isDecimalString (s : String) : Bool :=
  let cs := s.toList
  let cs := match cs with
    | '-' :: rest => rest
    | _ => cs
  let afterMantissa : Option (List Char) :=
    let ds := cs.takeWhile Char.isDigit
    if ds ≠ [] then
      match cs.dropWhile Char.isDigit with
      | '.' :: r2 => some (r2.dropWhile Char.isDigit)
      | r => some r
    else
      match cs with
      | '.' :: r2 =>
        if r2.takeWhile Char.isDigit ≠ [] then some (r2.dropWhile Char.isDigit)
        else none
      | _ => none
  match afterMantissa with
  | none => false
  | some [] => true
  | some (e :: r3) =>
    if e = 'e' ∨ e = 'E' then
      let r4 := match r3 with
        | '+' :: t => t
        | '-' :: t => t
        | _ => r3
      r4.takeWhile Char.isDigit ≠ [] ∧ r4.dropWhile Char.isDigit = []
    else false

/-- Application of `isDecimalString` to a runtime value; the call site
guards it with an inferred kind of `String`, so only strings matter. -/
def JsValue.isDecimalStr : JsValue → Bool
  | .str s => isDecimalString s
  | .uuidStr s => isDecimalString s
  | _ => false

def JsValue.isObjectEnum : JsValue → Bool
  | .objectEnum _ => true
  | _ => false

def JsValue.isFieldRef : JsValue → Bool
  | .fieldRef _ => true
  | _ => false

/-- The non-recursive prefix of the source's `hasCorrectScalarType` rule
chain: every ordered `return true` rule up to and including the
`value === null` acceptance; the trailing element-wise list recursion is
spliced back in below. -/
def scalarAcceptNoRec (value : JsValue) (inputType : SchemaArgInputType)
    (context : MakeDocumentContext) : Bool :=
  let isList := inputType.isList
  let expectedType := getExpectedType inputType context inputType.isList
  let graphQLType := getGraphQLType value (some inputType)
  decide (graphQLType = expectedType)
  || (isList && decide (graphQLType = "List<>"))
  || (decide (expectedType = "Json") && decide (graphQLType ≠ "Symbol")
      && !value.isObjectEnum && !value.isFieldRef)
  || (decide (graphQLType = "Int") && decide (expectedType = "BigInt"))
  || ((decide (graphQLType = "Int") || decide (graphQLType = "Float"))
      && decide (expectedType = "Decimal"))
  || (decide (graphQLType = "DateTime") && decide (expectedType = "String"))
  || (decide (graphQLType = "UUID") && decide (expectedType = "String"))
  || (decide (graphQLType = "String") && decide (expectedType = "ID"))
  || (decide (graphQLType = "Int") && decide (expectedType = "Float"))
  || (decide (graphQLType = "Int") && decide (expectedType = "Long"))
  || (decide (graphQLType = "String") && decide (expectedType = "Decimal")
      && value.isDecimalStr)
  || value.isNull

mutual

/-- The source's `hasCorrectScalarType`: the ordered acceptance rules for a
provided value against a declared primitive/enum kind — the `return true`
rules (an ordered chain of them is their disjunction) followed by the
element-wise check for a list value against a list kind. -/
def hasCorrectScalarType (value : JsValue) (inputType : SchemaArgInputType)
    (context : MakeDocumentContext) : Bool :=
  if scalarAcceptNoRec value inputType context then true
  else if inputType.isList then
    match value with
    | .list xs => hasCorrectScalarTypeList xs inputType context
    | _ => false
  else false

/-- Element-wise acceptance of a list (`value.every(...)` with the list
marker stripped). -/
def hasCorrectScalarTypeList (xs : List JsValue) (inputType : SchemaArgInputType)
    (context : MakeDocumentContext) : Bool :=
  match xs with
  | [] => true
  | v :: vs =>
    hasCorrectScalarType v (.mk false inputType.location inputType.type) context
      && hasCorrectScalarTypeList vs inputType context

end

/-- The source's `getInvalidTypeArg`: an `Arg` carrying an `invalidType`
error for the given best-fitting candidate. -/
def getInvalidTypeArg (key : String) (value : JsValue) (arg : SchemaArg)
    (bestFittingType : SchemaArgInputType) : Arg :=
  Arg.make key (.raw value) (bestFittingType.location = .enumTypes)
    (some (.invalidType value key ⟨arg.inputTypes, bestFittingType⟩))
    none (some bestFittingType)

/-- The source's `scalarToArg`: an invalid Date is reported as
`invalidDateArg`, an accepted scalar becomes a clean `Arg`, anything else
an `invalidType` error. -/
def scalarToArg (key : String) (value : JsValue) (arg : SchemaArg)
    (inputType : SchemaArgInputType) (context : MakeDocumentContext) : Arg :=
  match value with
  | .date false =>
    Arg.make key (.raw value) false (some (.invalidDateArg key)) (some arg) (some inputType)
  | _ =>
    if hasCorrectScalarType value inputType context then
      Arg.make key (.raw value) (inputType.location = .enumTypes) none
        (some arg) (some inputType)
    else getInvalidTypeArg key value arg inputType

mutual

/-- The source's `getDepth`: the maximal object-nesting level of a value,
starting at 1; a key whose value has `typeof ... === 'object'` (including
`null`) contributes its own depth plus one. -/
def getDepth : JsValue → Nat
  | .obj fs => getDepthFields fs
  | .list xs => getDepthList xs
  | _ => 1

def getDepthFields : List (String × JsValue) → Nat
  | [] => 1
  | (_, v) :: fs =>
    if v.typeofObject then max (getDepth v + 1) (getDepthFields fs)
    else getDepthFields fs

def getDepthList : List JsValue → Nat
  | [] => 1
  | v :: vs =>
    if v.typeofObject then max (getDepth v + 1) (getDepthList vs)
    else getDepthList vs

end

/-- The substring test `name.includes('Unchecked')`. -/
def containsUnchecked (s : String) : Bool :=
  (s.splitOn "Unchecked").length != 1

/-- A failing union candidate: the compiled `Arg` together with its
collected errors (`argsWithErrors` entries of `valueToArg`). -/
structure Cand where
  arg : Arg
  errors : List ArgErrorRec

/-- The per-error score of the union-scoring pass of `valueToArg`, exactly
as the source computes it: a base of 1, replaced by `2·exp(depth)+1` for an
`invalidType` error, plus `log` of the path length, doubled for a
`missingArg` error whose candidate input type is an input object type whose
name contains `Unchecked`, and doubled for an `invalidName` error whose
original type name contains `Unchecked`. -/
noncomputable def errorScore (cand : Arg) (e : ArgErrorRec) : ℝ :=
  let score : ℝ :=
    match e.error with
    | .invalidType providedValue _ _ => 2 * Real.exp (getDepth providedValue) + 1
    | _ => 1
  let score := score + Real.log e.path.length
  let score :=
    match e.error with
    | .missingArg .. =>
      match cand.inputType with
      | some it =>
        match it.type with
        | .inputT t => if containsUnchecked t.name then score * 2 else score
        | _ => score
      | none => score
    | .invalidName _ _ _ _ originalType _ _ =>
      if containsUnchecked originalType.name then score * 2 else score
    | _ => score
  score

/-- The score of a failing candidate: its error count plus the sum of its
per-error scores. -/
noncomputable def candScore (c : Cand) : ℝ :=
  c.errors.length + (c.errors.map (errorScore c.arg)).sum

/-- The per-error score as the specification words it: for a type-mismatch
error `2·e^(depth)+1`, otherwise `1`, plus the natural logarithm of the
path length, the whole doubled for a missing-argument error whose candidate
input type is an `Unchecked` variant or an unknown-name error whose owning
type is an `Unchecked` variant. -/
noncomputable def claimErrorScore (cand : Arg) (e : ArgErrorRec) : ℝ :=
  let base : ℝ :=
    match e.error with
    | .invalidType providedValue _ _ => 2 * Real.exp (getDepth providedValue) + 1
    | _ => 1
  let doubled : Bool :=
    match e.error with
    | .missingArg .. =>
      match cand.inputType with
      | some it =>
        match it.type with
        | .inputT t => containsUnchecked t.name
        | _ => false
      | none => false
    | .invalidName _ _ _ _ originalType _ _ => containsUnchecked originalType.name
    | _ => false
  (if doubled then 2 else 1) * (base + Real.log e.path.length)

/-- The candidate score as the specification words it. -/
noncomputable def claimScore (c : Cand) : ℝ :=
  c.errors.length + (c.errors.map (claimErrorScore c.arg)).sum

/-- Insertion into a sorted prefix, placing the new element after every
element it does not strictly precede — the stable order produced by the
source's `sort((a, b) => a.score < b.score ? -1 : 1)`. -/
def insertByLt (lt : Cand → Cand → Bool) (c : Cand) : List Cand → List Cand
  | [] => [c]
  | d :: ds => if lt c d then c :: d :: ds else d :: insertByLt lt c ds

/-- Stable sort by the comparison oracle, processing candidates in order. -/
def sortByLt (lt : Cand → Cand → Bool) (l : List Cand) : List Cand :=
  l.foldl (fun acc c => insertByLt lt c acc) []

/-- The selection `argsWithScores.sort(...)[0]` of `valueToArg`. -/
def pickLowest (lt : Cand → Cand → Bool) (l : List Cand) : Option Cand :=
  (sortByLt lt l).head?

/-- Faithfulness of the comparison oracle: it answers exactly the real
comparison `a.score < b.score` that the source evaluates on floats. -/
def ScoreLtFaithful (lt : Cand → Cand → Bool) : Prop :=
  ∀ a b, lt a b = true ↔ candScore a < candScore b

/-- The source's `cleanObject`: `filterObject(obj, (k, v) => v !== undefined)`.
Modelled from the spec: `filterObject` drops the `undefined`-valued fields
of an object and leaves any non-object value unchanged. -/
def cleanObject : JsValue → JsValue
  | .obj fs => .obj (fs.filter fun p => !p.2.isUndef)
  | v => v

/-- Modelled from the spec: `isObject` of `utils/isObject` — a plain
(non-null, non-array) object. -/
def isObject : JsValue → Bool
  | .obj _ => true
  | _ => false

/-- Modelled from the spec: `getSuggestion` of `utils/common` computes an
edit-distance based name suggestion; no claim below depends on the
suggestion itself, so the model offers none. -/
def getSuggestion (_input : String) (_candidates : List String) : Option String :=
  none

/-- Modelled from the spec: `unionBy` of `utils/common` keyed on the first
component — the first list followed by the entries of the second list whose
key does not already occur (JavaScript object entries have distinct keys). -/
def unionByKey (as bs : List (String × JsValue)) : List (String × JsValue) :=
  as ++ bs.filter (fun b => !(as.any (fun a => a.1 = b.1)))

/-- The source's `scalarType`: the same declared input type with the list
marker stripped. -/
def scalarType (listType : SchemaArgInputType) : SchemaArgInputType :=
  .mk false listType.location listType.type

/-- The source's `scalarOnlyArg`: the same schema argument with the
list-shaped members of its union removed. -/
def scalarOnlyArg (arg : SchemaArg) : SchemaArg :=
  .mk arg.name arg.isRequired arg.isNullable
    (arg.inputTypes.filter fun it => !it.isList)

theorem entriesIdx_snd_mem {p : String × JsValue} {i : Nat} {xs : List JsValue}
    (h : p ∈ JsValue.entriesIdx i xs) : p.2 ∈ xs := by
  induction xs generalizing i with
  | nil => cases h
  | cons x rest ih =>
    simp only [JsValue.entriesIdx, List.mem_cons] at h
    rcases h with rfl | h'
    · simp
    · exact List.mem_cons_of_mem _ (ih h')

theorem jsSize_entry_lt {v : JsValue} {p : String × JsValue}
    (h : p ∈ v.entries) : jsSize p.2 < jsSize v := by
  cases v with
  | obj fs =>
    obtain ⟨k, w⟩ := p
    simp only [JsValue.entries] at h
    have := jsSizeFields_mem_le (k := k) (v := w) h
    simp [jsSize]
    omega
  | list xs =>
    have hx : p.2 ∈ xs := entriesIdx_snd_mem h
    have := jsSizeList_mem_le hx
    simp [jsSize]
    omega
  | undef => cases h
  | null => cases h
  | bool b => cases h
  | int n => cases h
  | float => cases h
  | str s => cases h
  | uuidStr s => cases h
  | bigintV => cases h
  | decimalObj => cases h
  | bytes => cases h
  | date b => cases h
  | symbolV => cases h
  | objectEnum n => cases h
  | fieldRef n => cases h
  | deserialized k r => cases h

theorem jsSize_cleanObject_le (v : JsValue) : jsSize (cleanObject v) ≤ jsSize v := by
  cases v with
  | obj fs =>
    have := jsSizeFields_filter_le (fun p => !p.2.isUndef) fs
    simp [cleanObject, jsSize]
    omega
  | undef => simp [cleanObject]
  | null => simp [cleanObject]
  | bool b => simp [cleanObject]
  | int n => simp [cleanObject]
  | float => simp [cleanObject]
  | str s => simp [cleanObject]
  | uuidStr s => simp [cleanObject]
  | bigintV => simp [cleanObject]
  | decimalObj => simp [cleanObject]
  | bytes => simp [cleanObject]
  | date b => simp [cleanObject]
  | symbolV => simp [cleanObject]
  | objectEnum n => simp [cleanObject]
  | fieldRef n => simp [cleanObject]
  | deserialized k r => simp [cleanObject]
  | list xs => simp [cleanObject]

/-- Bound on the values the argument-list fold of `objectToArgs` compiles:
every entry value is either a synthetic `undefined` or a field value of the
cleaned object, hence strictly smaller than the object. -/
theorem objectToArgs_entry_bound {o : JsValue} {args : List SchemaArg}
    {p : String × JsValue}
    (h : p ∈ unionByKey
      (if (cleanObject o).truthy then cleanObject o else .obj []).entries
      (args.map fun a => (a.name, JsValue.undef))) :
    p.2 = JsValue.undef ∨ jsSize p.2 < jsSize o := by
  rcases List.mem_append.mp h with hl | hr
  · right
    by_cases ht : (cleanObject o).truthy
    · simp only [ht, if_pos] at hl
      have h1 := jsSize_entry_lt hl
      have h2 := jsSize_cleanObject_le o
      omega
    · simp only [ht] at hl
      simp [JsValue.entries] at hl
  · left
    have := List.mem_filter.mp hr
    obtain ⟨a, _, rfl⟩ := List.mem_map.mp this.1
    rfl

/-- The auto-wrap step of `tryInferArgs` for list-shaped declared types:
`if (!Array.isArray(value) && inputType.isList) { if (key !== 'updateMany')
value = [value] }`. -/
def wrapList (value : JsValue) (inputType : SchemaArgInputType) (key : String) :
    JsValue :=
  if !value.isArray && inputType.isList && key ≠ "updateMany" then
    JsValue.list [value]
  else value

theorem wrapList_elem_le {value : JsValue} {inputType : SchemaArgInputType}
    {key : String} {elems : List JsValue}
    (h : wrapList value inputType key = .list elems) {e : JsValue}
    (he : e ∈ elems) : jsSize e ≤ jsSize value := by
  unfold wrapList at h
  by_cases hc : (!value.isArray && inputType.isList && !decide (key = "updateMany")) = true
  · rw [if_pos (by simpa using hc)] at h
    cases h
    simp only [List.mem_singleton] at he
    subst he
    exact le_refl _
  · rw [if_neg (by simpa using hc)] at h
    subst h
    have := jsSizeList_mem_le he
    simp only [jsSize]
    omega

theorem wrapList_not_array {value : JsValue} {inputType : SchemaArgInputType}
    {key : String} (h : ¬((wrapList value inputType key).isArray = true)) :
    wrapList value inputType key = value := by
  unfold wrapList at h ⊢
  by_cases hc : (!value.isArray && inputType.isList && !decide (key = "updateMany")) = true
  · rw [if_pos (by simpa using hc)] at h
    simp [JsValue.isArray] at h
  · rw [if_neg (by simpa using hc)]

/-- The `isAtLeastOne` test of the `null` guard of `tryInferArgs`: the
declared type is an input object type with a positive `minNumFields`
constraint. -/
def atLeastOneCheck (inputType : SchemaArgInputType) : Bool :=
  match inputType.type with
  | .inputT t =>
    match t.constraints.minNumFields with
    | some m => m > 0
    | none => false
  | _ => false

/-- The single candidate `Arg` the loop of `valueToArg` builds for a
required argument whose provided value is `undefined`. -/
def missingArgFor (key : String) (arg : SchemaArg) (t : SchemaArgInputType) : Arg :=
  Arg.make key (.raw .undef) (t.location = .enumTypes)
    (some (.missingArg key arg false false)) none (some t)

/-- The behaviour of the candidate loop of `valueToArg` when the provided
value is `undefined`: no candidate for a non-required argument; otherwise
every candidate fails with `missingArg` and the scored best is returned.
This mirrors running the loop body on the `undefined` early returns of
`tryInferArgs` and is split out for the termination measure. -/
def valueToArgUndef (scoreLt : Cand → Cand → Bool) (key : String)
    (arg : SchemaArg) : Option Arg :=
  if !arg.isRequired then none
  else
    match arg.inputTypes with
    | [] => none
    | ts =>
      let cands := ts.map fun t =>
        let a := missingArgFor key arg t
        Cand.mk a a.collectErrors
      match pickLowest scoreLt cands with
      | some c => some c.arg
      | none => none

mutual

/-- The source's `valueToArg`: run the candidate loop over the declared
union.  The `undefined` case is routed through `valueToArgUndef`, whose
result coincides with running the loop. -/
def valueToArg (scoreLt : Cand → Cand → Bool) (key : String) (value : JsValue)
    (arg : SchemaArg) (context : MakeDocumentContext) : Option Arg :=
  if hu : value.isUndef then valueToArgUndef scoreLt key arg
  else valueToArgLoop scoreLt key value arg context arg.inputTypes none []
termination_by (jsSize value, if value.isUndef then 0 else 6, 0)
decreasing_by
  simp only [Prod.lex_def, true_and, and_true]
  rw [if_neg hu]
  omega

/-- The candidate loop of `valueToArg`: `maybeArg` is the last compiled
candidate, `acc` the `argsWithErrors` accumulator; the first candidate with
zero collected errors is returned, otherwise the scored selection runs at
the end. -/
def valueToArgLoop (scoreLt : Cand → Cand → Bool) (key : String)
    (value : JsValue) (arg : SchemaArg) (context : MakeDocumentContext) :
    List SchemaArgInputType → Option Arg → List Cand → Option Arg
  | [], maybeArg, acc =>
    match maybeArg with
    | some a =>
      if a.hasError && acc.length != 0 then
        match pickLowest scoreLt acc with
        | some c => some c.arg
        | none => some a
      else some a
    | none => none
  | t :: rest, _, acc =>
    match tryInferArgs scoreLt key value arg t context with
    | some a =>
      if a.collectErrors.length = 0 then some a
      else valueToArgLoop scoreLt key value arg context rest (some a)
        (acc ++ [⟨a, a.collectErrors⟩])
    | none => valueToArgLoop scoreLt key value arg context rest none acc
termination_by types m acc => (jsSize value, 5, types.length)
decreasing_by
  all_goals simp only [Prod.lex_def, true_and, and_true, List.length_cons]
  all_goals omega

/-- The source's `tryInferArgs`: compile a value against one member of the
declared union. -/
def tryInferArgs (scoreLt : Cand → Cand → Bool) (key : String) (value : JsValue)
    (arg : SchemaArg) (inputType : SchemaArgInputType)
    (context : MakeDocumentContext) : Option Arg :=
  if hu : value.isUndef then
    if !arg.isRequired then none
    else some (Arg.make key (.raw value) (inputType.location = .enumTypes)
      (some (.missingArg key arg false false)) none (some inputType))
  else
    if value.isNull && !arg.isNullable && !arg.isRequired
        && !atLeastOneCheck inputType then
      some (Arg.make key (.raw value) (inputType.location = .enumTypes)
        (some (.invalidNullArg key arg.inputTypes false false)) none (some inputType))
    else
      if hl : !inputType.isList then
        match inputType.type with
        | .inputT t =>
          if !value.typeofObject || value.isArray
              || (inputType.location = .inputObjectTypes && !isObject value) then
            some (getInvalidTypeArg key value arg inputType)
          else
            let val := cleanObject value
            let ks := (if val.truthy then val else .obj []).keys
            let numKeys := ks.length
            let error : Option InvalidArgError :=
              if (numKeys = 0
                    && (match t.constraints.minNumFields with
                        | some m => m > 0
                        | none => false))
                  || (match t.constraints.fields with
                      | some fl => !(fl.any fun f => ks.contains f)
                      | none => false) then
                some (.atLeastOne key t t.constraints.fields)
              else if numKeys > 1
                  && (match t.constraints.maxNumFields with
                      | some m => m < 2
                      | none => false) then
                some (.atMostOne key t ks)
              else none
            some (Arg.make key
              (if val.isNull then .raw .null
               else .argsV (objectToArgs scoreLt val t context (some arg.inputTypes) none))
              (inputType.location = .enumTypes) error (some arg) (some inputType))
        | _ => some (scalarToArg key value arg inputType context)
      else
        let wrapped := wrapList value inputType key
        if inputType.location = .enumTypes || inputType.location = .scalar then
          some (scalarToArg key wrapped arg inputType context)
        else
          let hasAtLeastOneError :=
            match inputType.type with
            | .inputT t =>
              (match t.constraints.minNumFields with
               | some m => m > 0
               | none => false)
              && (match wrapped with
                  | .list xs =>
                    xs.any fun v => !v.truthy || ((cleanObject v).keys).length = 0
                  | _ => false)
            | _ => false
          let err : Option InvalidArgError :=
            if hasAtLeastOneError then
              match inputType.type with
              | .inputT t => some (.atLeastOne key t none)
              | _ => none
            else
              match inputType.type with
              | .inputT t =>
                if (match t.constraints.maxNumFields with
                    | some m => decide (m < 2)
                    | none => false : Bool) then
                  match wrapped with
                  | .list xs =>
                    match xs.find? (fun v =>
                        !v.truthy || (JsValue.keys (cleanObject v)).length ≠ 1) with
                    | some fv =>
                      if fv.truthy then some (.atMostOne key t fv.keys) else none
                    | none => none
                  | _ => none
                else none
              | _ => none
          -- The sweep runs on the source's `value` variable; under the
          -- non-array guard no wrap has happened (`wrapList_not_array`), so
          -- that variable equals the original value.
          let nested :=
            if hw : !wrapped.isArray then
              tryNested scoreLt key value arg context arg.inputTypes
            else none
          match nested with
          | some a => some a
          | none =>
            match hv : wrapped with
            | .list elems =>
              some (Arg.make key
                (.listV ((JsValue.entriesIdx 0 elems).attach.map fun pe =>
                  let i := pe.1.1
                  let v := pe.1.2
                  if inputType.isList && !v.typeofObject then ArgElem.rawE v
                  else if !v.typeofObject || v.isArray then
                    .argE (getInvalidTypeArg i v (scalarOnlyArg arg) (scalarType inputType))
                  else
                    .argsE (objectToArgsAT scoreLt v inputType.type context)))
                false err (some arg) (some inputType))
            | _ =>
              some (Arg.make key .crash false err (some arg) (some inputType))
termination_by (jsSize value, 4, 0)
decreasing_by
  · simp only [Prod.lex_def, true_and, and_true]
    have := jsSize_cleanObject_le value
    omega
  · simp only [Prod.lex_def, true_and, and_true]
    omega
  · have hle : jsSize pe.1.2 ≤ jsSize value :=
      wrapList_elem_le hv (entriesIdx_snd_mem pe.2)
    simp only [Prod.lex_def, true_and, and_true]
    omega

/-- The candidate sweep at the `updateMany` dead end of `tryInferArgs`
(`for (const nestedArgInputType of arg.inputTypes) ...`): the first union
member whose object compilation collects no error wins. -/
def tryNested (scoreLt : Cand → Cand → Bool) (key : String) (value : JsValue)
    (arg : SchemaArg) (context : MakeDocumentContext) :
    List SchemaArgInputType → Option Arg
  | [] => none
  | t :: rest =>
    let args := objectToArgsAT scoreLt value t.type context
    if args.collectErrors.length = 0 then
      some (Arg.make key (.argsV args) false none (some arg) (some t))
    else tryNested scoreLt key value arg context rest
termination_by types => (jsSize value, 3, types.length)
decreasing_by
  all_goals simp only [Prod.lex_def, true_and, and_true, List.length_cons]
  all_goals omega

/-- The cast `nestedArgInputType.type as DMMF.InputType` at the
`objectToArgs` call sites: on a scalar or enum name the JavaScript code
would read `fields` of a string and throw, which the model marks with a
crash `Args`. -/
def objectToArgsAT (scoreLt : Cand → Cand → Bool) (o : JsValue) (t : ArgType)
    (context : MakeDocumentContext) : Args :=
  match t with
  | .inputT it => objectToArgs scoreLt o it context none none
  | _ => Args.mk [Arg.make "crash" .crash false none none none]
termination_by (jsSize o, 2, 0)
decreasing_by
  simp only [Prod.lex_def, true_and, and_true]
  omega

/-- The source's `objectToArgs`: compile the present keys of an object
against an input object type, surface unknown keys as `invalidName`, and
append the informational `missingArg` entries for optional absent fields
when a minimum-cardinality deficit or a missing/at-least-one error is
present. -/
def objectToArgs (scoreLt : Cand → Cand → Bool) (initialObj : JsValue)
    (inputType : InputType) (context : MakeDocumentContext)
    (possibilities : Option (List SchemaArgInputType))
    (outputType : Option OutputType) : Args :=
  let context : MakeDocumentContext :=
    match inputType.metaSource with
    | some src => ⟨some src⟩
    | none => context
  let obj := cleanObject initialObj
  let args := inputType.fields
  let requiredArgs : List (String × JsValue) := args.map fun a => (a.name, .undef)
  let objEntries := (if obj.truthy then obj else .obj []).entries
  let entries := unionByKey objEntries requiredArgs
  let argsList := entries.attach.foldl (fun acc pe =>
    let argName := pe.1.1
    let value := pe.1.2
    match args.find? (fun a => a.name = argName) with
    | none =>
      let didYouMeanField : Option String :=
        if value.isBoolean then
          match outputType with
          | some ot =>
            if ot.fields.any (fun f => f.name = argName) then some argName else none
          | none => none
        else none
      acc ++ [Arg.make argName (.raw value) false
        (some (.invalidName argName value didYouMeanField
          (if didYouMeanField.isSome then none
           else getSuggestion argName (args.map SchemaArg.name ++ ["select"]))
          inputType possibilities outputType))
        none none]
    | some schemaArg =>
      match valueToArg scoreLt argName value schemaArg context with
      | some arg => acc ++ [arg]
      | none => acc) []
  let argsList :=
    if (match inputType.constraints.minNumFields with
        | some m => (objEntries.length : Int) < m
        | none => false)
      || (argsList.find? (fun a =>
            match a.error with
            | some e => e.kind = "missingArg" || e.kind = "atLeastOne"
            | none => false)).isSome then
      let optionalMissingArgs := inputType.fields.filter fun field =>
        !field.isRequired && obj.truthy
          && ((obj.get field.name).isUndef || (obj.get field.name).isNull)
      argsList ++ optionalMissingArgs.map fun arg =>
        let argInputType := arg.inputTypes.head?
        Arg.make arg.name (.raw .undef)
          (match argInputType with
           | some it => it.location = .enumTypes
           | none => false)
          (some (.missingArg arg.name arg
            (match inputType.constraints.minNumFields with
             | some m => m ≠ 0
             | none => false)
            (inputType.constraints.maxNumFields = some 1)))
          none argInputType
    else argsList
  Args.mk argsList
termination_by (jsSize initialObj, 1, 0)
decreasing_by
  simp only [Prod.lex_def, true_and, and_true]
  rcases objectToArgs_entry_bound pe.2 with hud | hlt
  · rw [hud]
    simp [jsSize, JsValue.isUndef]
    omega
  · omega

end

/-- Modelled from the spec: `omit` of `utils/omit` — the own enumerable
entries of the value without the given keys, as an object (`null`, `Date`
and other property-less values give an empty object, arrays their indexed
entries). -/
def omitKeys (v : JsValue) (ks : List String) : JsValue :=
  .obj (v.entries.filter fun p => !(ks.contains p.1))

/-- Modelled from the spec: `applyComputedFieldsToSelection` of the
extensions module expands extension-declared computed fields into their
backing fields; the embedding carries no extensions, so the computed-field
map is empty and the selection is unchanged. -/
def applyComputedFieldsToSelection (selection : JsValue) : JsValue :=
  selection

/-- Modelled from the spec: `isGroupByOutputName` of `utils/common` — the
aggregation output types are recognised by their name suffix. -/
def isGroupByOutputName (s : String) : Bool :=
  s.endsWith "GroupByOutputType"

/-- The name read through the `as DMMF.OutputType` cast
(`outputType.name`); on a scalar or enum name the JavaScript read yields
`undefined`, modelled as `"undefined"`. -/
def OutTy.nameOf : OutTy → String
  | .objT t => t.name
  | _ => "undefined"

/-- The object behind the `as DMMF.OutputType` cast when one exists. -/
def OutTy.asOutputType : OutTy → Option OutputType
  | .objT t => some t
  | _ => none

/-- The source's `byToSelect`: the group-by name list turned into a
selection of those names (keys are the JavaScript string coercions). -/
def byToSelect : List JsValue → List (String × JsValue)
  | [] => []
  | b :: rest =>
    (match b with
     | .str s => s
     | .uuidStr s => s
     | .int n => toString n
     | _ => "undefined", JsValue.bool true) :: byToSelect rest

/-- The source's `getDefaultSelection`: every field whose target is in the
composite-type map and every scalar/enum field, defaulted to selected. -/
def getDefaultSelection (dmmf : DMMFHelper) (outputType : OutputType) : JsValue :=
  .obj ((outputType.fields.filter fun f =>
      (match f.outType.objName with
       | some n => dmmf.typeNames.contains n
       | none => false)
      || f.location = .scalar || f.location = .enumTypes).map
    fun f => (f.name, .bool true))

/-- The cast `field.outputType.type as DMMF.OutputType` in front of
`getDefaultSelection`; iterating `fields` of a scalar name would throw in
JavaScript, modelled as an empty default selection. -/
def getDefaultSelectionAT (dmmf : DMMFHelper) (t : OutTy) : JsValue :=
  match t with
  | .objT T => getDefaultSelection dmmf T
  | _ => .obj []

mutual

/-- Modelled from the spec: `deepExtend` of `utils/deep-extend` — the
`include` selection deep-merged over the default selection: source keys are
folded into the target, recursing when both sides hold objects. -/
def deepExtend : JsValue → JsValue → JsValue
  | .obj tf, .obj sf => .obj (deepExtendInto tf sf)
  | _, s => s

def deepExtendInto (tf : List (String × JsValue)) :
    List (String × JsValue) → List (String × JsValue)
  | [] => tf
  | (k, w) :: rest =>
    let tf' :=
      if tf.any (fun p => p.1 = k) then
        tf.map fun p => if p.1 = k then (k, deepExtend p.2 w) else p
      else tf ++ [(k, w)]
    deepExtendInto tf' rest

end

theorem sizeOf_outType_lt (f : SchemaField) : sizeOf f.outType < sizeOf f := by
  cases f
  simp [SchemaField.outType]

theorem sizeOf_fieldsOf_lt {t : OutTy} {f : SchemaField}
    (h : f ∈ t.fieldsOf) : sizeOf f < sizeOf t := by
  cases t with
  | objT T =>
    cases T with
    | mk n fs =>
      simp only [OutTy.fieldsOf, OutputType.fields] at h
      have := List.sizeOf_lt_of_mem h
      simp
      omega
  | scalarName n => simp [OutTy.fieldsOf] at h
  | enumName n => simp [OutTy.fieldsOf] at h

mutual

/-- The source's `selectionToFields`: fold the selection entries through
the per-entry compilation step against the schema field's output type. -/
def selectionToFields (scoreLt : Cand → Cand → Bool) (dmmf : DMMFHelper)
    (selection : JsValue) (schemaField : SchemaField) (path : List String)
    (context : MakeDocumentContext) : List Field :=
  (applyComputedFieldsToSelection selection).entries.foldl
    (fun acc p =>
      selectionStep scoreLt dmmf schemaField.outType path context acc p.1 p.2)
    []
termination_by (sizeOf schemaField, 1)
decreasing_by
  simp only [Prod.lex_def, true_and, and_true]
  have := sizeOf_outType_lt schemaField
  omega

/-- The body of the `reduce` of `selectionToFields`, handling one selection
key/value pair. -/
def selectionStep (scoreLt : Cand → Cand → Bool) (dmmf : DMMFHelper)
    (outputType : OutTy) (path : List String) (context : MakeDocumentContext)
    (acc : List Field) (name : String) (value : JsValue) : List Field :=
  match hf : (OutTy.fieldsOf outputType).find? (fun f => f.name = name) with
  | none =>
    acc ++ [Field.mk name none (some [])
      (some (.invalidFieldName (OutTy.nameOf outputType) name
        (getSuggestion name ((OutTy.fieldsOf outputType).map SchemaField.name))
        outputType false false))
      none]
  | some field =>
    if field.location = .scalar && field.args.length = 0 && !value.isBoolean then
      acc ++ [Field.mk name none (some [])
        (some (.invalidFieldType (OutTy.nameOf outputType) name value)) none]
    else if value.isFalseLit then acc
    else
      let transformedField : InputType := .mk field.name ⟨none, none, none⟩ none field.args
      let argsWithoutIncludeAndSelect : Option JsValue :=
        if value.typeofObject then some (omitKeys value ["include", "select"])
        else none
      let args : Option Args :=
        match argsWithoutIncludeAndSelect with
        | some a =>
          if a.truthy then
            some (objectToArgs scoreLt a transformedField context (some [])
              field.outType.asOutputType)
          else none
        | none => none
      let isRelation := field.location = .outputObjectTypes
      -- the tail of the step shared by all non-returning branches
      let finish : List Field → List Field := fun acc =>
        let defaultSelection :=
          if isRelation then getDefaultSelectionAT dmmf field.outType
          else JsValue.null
        let select :=
          if value.truthy then
            if (value.get "select").truthy then value.get "select"
            else if (value.get "include").truthy then
              deepExtend defaultSelection (value.get "include")
            else if (value.get "by").truthy
                && field.namesp = some "prisma"
                && field.location = .outputObjectTypes
                && isGroupByOutputName field.outType.nameOf then
              match value.get "by" with
              | .list bs => JsValue.obj (byToSelect bs)
              | _ => defaultSelection
            else defaultSelection
          else defaultSelection
        let children : Option (List Field) :=
          if !select.isFalseLit && isRelation then
            let modelName :=
              match field.outType, field.namesp, field.location with
              | .objT t, some "model", .outputObjectTypes => some t.name
              | _, _, _ => context.modelName
            some (selectionToFields scoreLt dmmf select field (path ++ [name])
              (MakeDocumentContext.mk modelName))
          else none
        acc ++ [Field.mk name args children none (some field)]
      if value.truthy then
        if (value.get "select").truthy && (value.get "include").truthy then
          finish (acc ++ [Field.mk name none
            (some [Field.mk "include" (some (Args.mk [])) none
              (some (.includeAndSelect field)) none])
            none none])
        else if (value.get "include").truthy then
          let ks := (value.get "include").keys
          if ks.length = 0 then
            acc ++ [Field.mk name none
              (some [Field.mk "include" (some (Args.mk [])) none
                (some (.emptyInclude field)) none])
              none none]
          else
            if field.location = .outputObjectTypes then
              let allowedKeys :=
                ((field.outType.fieldsOf.filter fun f =>
                    f.location = .outputObjectTypes).map SchemaField.name)
              let invalidKeys := ks.filter fun k => !(allowedKeys.contains k)
              if invalidKeys.length > 0 then
                acc ++ invalidKeys.map fun invalidKey =>
                  Field.mk invalidKey none
                    (some [Field.mk invalidKey (some (Args.mk [])) none
                      (some (.invalidFieldName field.outType.nameOf invalidKey
                        (getSuggestion invalidKey allowedKeys)
                        field.outType true
                        (field.outType.fieldsOf.any fun f => f.name = invalidKey)))
                      none])
                    none none
              else finish acc
            else finish acc
        else if (value.get "select").truthy then
          let vals := (value.get "select").values
          if vals.length = 0 then
            acc ++ [Field.mk name none
              (some [Field.mk "select" (some (Args.mk [])) none
                (some (.emptySelect field)) none])
              none none]
          else if (vals.filter JsValue.truthy).length = 0 then
            acc ++ [Field.mk name none
              (some [Field.mk "select" (some (Args.mk [])) none
                (some (.noTrueSelect field)) none])
              none none]
          else finish acc
        else finish acc
      else finish acc
termination_by (sizeOf outputType, 0)
decreasing_by
  simp only [Prod.lex_def, true_and, and_true]
  have hmem := List.mem_of_find?_eq_some hf
  have := sizeOf_fieldsOf_lt hmem
  omega

end

/-- The JavaScript name of an operation kind. -/
def OpKind.opName : OpKind → String
  | .query => "query"
  | .mutation => "mutation"

/-- The source's `makeDocument`: wrap the selection under the root field
name, compile it against a fake root schema field for the root type, and
collect the produced fields under a new `Document`. -/
def makeDocument (scoreLt : Cand → Cand → Bool) (dmmf : DMMFHelper)
    (rootTypeName : OpKind) (rootField : String) (select : JsValue)
    (modelName : Option String) : Document :=
  let select := if !select.truthy then JsValue.obj [] else select
  let rootType := match rootTypeName with
    | .query => dmmf.queryType
    | .mutation => dmmf.mutationType
  let fakeRootField : SchemaField :=
    .mk rootTypeName.opName [] false .outputObjectTypes none (.objT rootType)
  let children := selectionToFields scoreLt dmmf (.obj [(rootField, select)])
    fakeRootField [rootTypeName.opName] (MakeDocumentContext.mk modelName)
  Document.mk rootTypeName children


/-- The scalar/enum name behind `child.schemaField?.outputType.type` when
that type is a string. -/
def OutTy.strName : OutTy → Option String
  | .scalarName s => some s
  | .enumName s => some s
  | .objT _ => none

/-- Membership in the `deserializers` table of `mapScalars`. -/
def isWirePrimitive (name : String) : Bool :=
  name = "DateTime" || name = "Json" || name = "Bytes" || name = "Decimal"
    || name = "BigInt"

/-- Modelled from the spec: the deserializers of `mapScalars` (`new Date`,
`JSON.parse`, `Buffer.from`, `new Decimal`, `BigInt`) replace a raw wire
leaf by its richer in-memory representation; the model tags the raw value
with the wire kind. -/
def deserialize (kind : String) (v : JsValue) : JsValue :=
  .deserialized kind v

/-- In-place update `data[k] = f(data[k])` restricted to an existing key:
when the key is absent nothing in the source assigns, so nothing changes. -/
def JsValue.updateEntry (v : JsValue) (k : String) (f : JsValue → JsValue) : JsValue :=
  match v with
  | .obj fs => .obj (fs.map fun p => if p.1 = k then (p.1, f p.2) else p)
  | x => x

/-- The JavaScript property read `v[k]`: a `TypeError` (modelled as `none`)
on `null`/`undefined`, the looked-up entry on an object, `undefined` on
every other value. -/
def propAccess (v : JsValue) (k : String) : Option JsValue :=
  match v with
  | .null => none
  | .undef => none
  | .obj _ => some (v.get k)
  | _ => some JsValue.undef

/-- One scalar-deserializer application of `mapScalars` on one result
record: reading the leaf under the child name throws on a `null`/
`undefined` record; the leaf is replaced unless it is missing, `undefined`
or `null`; a scalar list is mapped element-wise. -/
def applyScalarDeser (childName : String) (kind : String) (entry : JsValue) :
    Option JsValue :=
  match propAccess entry childName with
  | none => none
  | some cur =>
    if cur.isUndef || cur.isNull then some entry
    else some (entry.updateEntry childName fun _ =>
      match cur with
      | .list xs => .list (xs.map (deserialize kind))
      | x => deserialize kind x)

/-- The source's `mapScalars`: walk the result payload alongside the field
tree, applying the wire-kind deserializers at scalar leaves and recursing
into nested-object fields, on single records and on arrays of records.
The in-place mutation of the source is modelled by writing the recursive
result back under the child name; a `TypeError` on a property read of a
`null`/`undefined` record propagates as `none`. -/
def mapScalars (f : Field) (data : JsValue) : Option JsValue :=
  match f with
  | .mk _ _ (some children) _ (some _) =>
    if !data.truthy || !data.typeofObject then some data
    else
      children.attach.foldl (fun md pc =>
        match md with
        | none => none
        | some d =>
          let child := pc.1
          let d1 : Option JsValue :=
            match child.schemaField with
            | some csf =>
              match csf.outType.strName with
              | some tname =>
                if isWirePrimitive tname then
                  match d with
                  | .list recs =>
                    (recs.mapM (applyScalarDeser child.name tname)).map .list
                  | _ => applyScalarDeser child.name tname d
                else some d
              | none => some d
            | none => some d
          match d1 with
          | none => none
          | some d2 =>
            match child.schemaField with
            | some csf =>
              if csf.location = .outputObjectTypes then
                match d2 with
                | .list recs =>
                  (recs.mapM (fun e =>
                    match propAccess e child.name with
                    | none => none
                    | some cur =>
                      (mapScalars child cur).map fun r =>
                        e.updateEntry child.name fun _ => r)).map .list
                | _ =>
                  match propAccess d2 child.name with
                  | none => none
                  | some cur =>
                    (mapScalars child cur).map fun r =>
                      d2.updateEntry child.name fun _ => r
              else some d2
            | none => some d2) (some data)
  | _ => some data
termination_by sizeOf f
decreasing_by
  all_goals
    have := List.sizeOf_lt_of_mem pc.2
    simp
    omega

/-! ### Shared helpers for the claim theorems -/

/-- A concrete comparison oracle; claims that do not depend on the scored
selection hold for every oracle and are instantiated with this one. -/
def scoreLtFalse : Cand → Cand → Bool := fun _ _ => false

theorem sizeOf_field_pos (c : Field) : 0 < sizeOf c := by
  cases c
  simp

/-- The constructor flags agree with the claim-side subtree-error notion:
`error || hasInvalidArg || hasInvalidChild` of every field in a list is the
same as an error somewhere in its subtree. -/
theorem anyInvalidChild_eq_anySubtree :
    ∀ (n : Nat) (cs : List Field), sizeOf cs ≤ n →
      Field.anyInvalidChild cs = Field.anySubtreeHasError cs := by
  intro n
  induction n with
  | zero =>
    intro cs h
    cases cs with
    | nil => rfl
    | cons c rest => simp at h
  | succ n ih =>
    intro cs h
    cases cs with
    | nil => rfl
    | cons c rest =>
      have hc := sizeOf_field_pos c
      have hsz : sizeOf (c :: rest) = 1 + sizeOf c + sizeOf rest := by simp
      have hrest := ih rest (by omega)
      cases c with
      | mk nm args children err sf =>
        cases children with
        | none =>
          simp only [Field.anyInvalidChild, Field.anySubtreeHasError,
            Field.subtreeHasError, Field.hasInvalidChild, Field.error,
            Field.hasInvalidArg, hrest]
        | some cs2 =>
          have hsz2 : sizeOf (Field.mk nm args (some cs2) err sf) =
              1 + sizeOf nm + sizeOf args + (1 + sizeOf cs2) + sizeOf err + sizeOf sf := by
            simp
          have hcs2 := ih cs2 (by omega)
          simp only [Field.anyInvalidChild, Field.anySubtreeHasError,
            Field.subtreeHasError, Field.hasInvalidChild, Field.error,
            Field.hasInvalidArg, hrest, hcs2]

/-- The validate filter predicate coincides with the claim-side
"error strictly below the root field" notion. -/
theorem flags_eq_errorBelow (c : Field) :
    (c.hasInvalidChild || c.hasInvalidArg) = c.errorBelow := by
  cases c with
  | mk nm args children err sf =>
    cases children with
    | none => simp [Field.hasInvalidChild, Field.errorBelow, Field.children]
    | some cs =>
      simp only [Field.hasInvalidChild, Field.errorBelow, Field.children,
        anyInvalidChild_eq_anySubtree (sizeOf cs) cs (le_refl _)]

theorem anySubtree_of_mem {c : Field} {cs : List Field} (h : c ∈ cs)
    (he : c.subtreeHasError = true) : Field.anySubtreeHasError cs = true := by
  induction cs with
  | nil => cases h
  | cons d rest ih =>
    rcases List.mem_cons.mp h with rfl | h2
    · simp [Field.anySubtreeHasError, he]
    · simp [Field.anySubtreeHasError, ih h2]

theorem errorBelow_subtree {c : Field} (h : c.errorBelow = true) :
    c.subtreeHasError = true := by
  cases c with
  | mk nm args children err sf =>
    cases children with
    | none =>
      simp only [Field.errorBelow, Field.children, Field.hasInvalidArg,
        Bool.or_eq_true] at h
      simp only [Field.subtreeHasError, Bool.or_eq_true]
      rcases h with h | h
      · cases h
      · exact Or.inl (Or.inr h)
    | some cs =>
      simp only [Field.errorBelow, Field.children, Field.hasInvalidArg,
        Bool.or_eq_true] at h
      simp only [Field.subtreeHasError, Bool.or_eq_true]
      rcases h with h | h
      · exact Or.inr h
      · exact Or.inl (Or.inr h)

/-! ### Claim 1 -/

/-- An `updateMany`-style union member: a list-shaped input object type
with no fields and no constraints. -/
def inpUMC1 : InputType := .mk "UserUpdateManyMutationInput" ⟨none, none, none⟩ none []

def tUMC1 : SchemaArgInputType := .mk true .inputObjectTypes (.inputT inpUMC1)

def argUMC1 : SchemaArg := .mk "updateMany" false false [tUMC1]

/-- A non-array value handed to the `updateMany` argument; its one key is
unknown to `inpUMC1`, so every union member's compilation collects an
error. -/
def valUMC1 : JsValue := .obj [("bogus", .int 1)]

def eInvUMC1 : InvalidArgError :=
  .invalidName "bogus" (.int 1) none none inpUMC1 none none

theorem objectToArgs_umc1 :
    objectToArgs scoreLtFalse valUMC1 inpUMC1 ⟨none⟩ none none =
      Args.mk [Arg.mk "bogus" (.raw (.int 1)) false (some eInvUMC1) none none] := by
  rw [objectToArgs]
  simp [inpUMC1, valUMC1, eInvUMC1, InputType.metaSource, InputType.fields,
    InputType.constraints, cleanObject, JsValue.isUndef, List.filter,
    JsValue.truthy, JsValue.entries, unionByKey, List.attach, List.attachWith,
    List.pmap, List.find?, JsValue.isBoolean, getSuggestion, Arg.make,
    Arg.error, InvalidArgError.kind]

theorem tryNested_umc1 :
    tryNested scoreLtFalse "updateMany" valUMC1 argUMC1 ⟨none⟩ [tUMC1] = none := by
  have ht : objectToArgsAT scoreLtFalse valUMC1 tUMC1.type ⟨none⟩ =
      Args.mk [Arg.mk "bogus" (.raw (.int 1)) false (some eInvUMC1) none none] := by
    rw [show tUMC1.type = ArgType.inputT inpUMC1 from rfl, objectToArgsAT]
    exact objectToArgs_umc1
  rw [tryNested, ht]
  rw [if_neg (by decide)]
  rw [tryNested]

/-- The `updateMany` dead end of `tryInferArgs`: a non-array value against
a list-shaped declared type is exempt from auto-wrapping, and when every
union member's object compilation collects an error the source falls
through to `value.map` on the non-array value and throws a `TypeError`,
the state the embedding marks with the `crash` value. -/
theorem tryInferArgs_updateMany_crash :
    tryInferArgs scoreLtFalse "updateMany" valUMC1 argUMC1 tUMC1 ⟨none⟩ =
      some (Arg.make "updateMany" .crash false none (some argUMC1) (some tUMC1)) := by
  rw [tryInferArgs]
  rw [show argUMC1.inputTypes = [tUMC1] from rfl]
  rw [tryNested_umc1]
  rfl

/-- Claim C1 (amended): the public validation entry point raises its single
failure exactly when some direct child of the document has an error
strictly below it — an error in a child subtree or among its arguments.  A
raise implies an error somewhere in the tree, and an error-free tree never
raises; but a root field's own error marker alone does not raise (see the
counterexample).  Compilation itself can fail before validation ever runs:
an `updateMany` argument whose list-shaped declared type receives a
non-array value on which every union member's compilation collects an
error reaches `value.map` on a non-array and throws a `TypeError`, the
error state the embedding marks with the `crash` value. -/
theorem claim1_validate_raises_characterization (d : Document) :
    (d.validateRaises = true ↔ ∃ c ∈ d.children, c.errorBelow = true) ∧
    (d.validateRaises = true → d.treeHasError = true) ∧
    (d.treeHasError = false → d.validateRaises = false) ∧
    tryInferArgs scoreLtFalse "updateMany" valUMC1 argUMC1 tUMC1 ⟨none⟩
      = some (Arg.make "updateMany" .crash false none (some argUMC1) (some tUMC1)) ∧
    ArgValue.anyError .crash = true := by
  have hchar : d.validateRaises = true ↔ ∃ c ∈ d.children, c.errorBelow = true := by
    unfold Document.validateRaises
    rw [bne_iff_ne]
    constructor
    · intro h
      have hne : (d.children.filter fun c => c.hasInvalidChild || c.hasInvalidArg) ≠ [] := by
        intro hnil
        rw [hnil] at h
        simp at h
      obtain ⟨c, hc⟩ := List.exists_mem_of_ne_nil _ hne
      have := List.mem_filter.mp hc
      exact ⟨c, this.1, by rw [← flags_eq_errorBelow]; exact this.2⟩
    · intro ⟨c, hmem, hbelow⟩
      have hin : c ∈ d.children.filter fun c => c.hasInvalidChild || c.hasInvalidArg :=
        List.mem_filter.mpr ⟨hmem, by rw [flags_eq_errorBelow]; exact hbelow⟩
      intro hlen
      rw [List.length_eq_zero] at hlen
      rw [hlen] at hin
      cases hin
  refine ⟨hchar, ?_, ?_, tryInferArgs_updateMany_crash, rfl⟩
  · intro h
    obtain ⟨c, hmem, hbelow⟩ := hchar.mp h
    exact anySubtree_of_mem hmem (errorBelow_subtree hbelow)
  · intro h
    cases hr : d.validateRaises with
    | false => rfl
    | true =>
      obtain ⟨c, hmem, hbelow⟩ := hchar.mp hr
      have := anySubtree_of_mem hmem (errorBelow_subtree hbelow)
      unfold Document.treeHasError at h
      rw [h] at this
      cases this

/-- Witness for C1: a document whose root child has an invalid argument
raises, has a tree error, and satisfies the characterization; and the
concrete `updateMany` input reaches the crash state. -/
theorem claim1_witness :
    (let d := Document.mk .query [Field.mk "f"
        (some (Args.mk [Arg.mk "x" (.raw .null) false
          (some (.invalidNullArg "x" [] false false)) none none]))
        none none none];
     (d.validateRaises = true ↔ ∃ c ∈ d.children, c.errorBelow = true) ∧
     (d.validateRaises = true → d.treeHasError = true) ∧
     (d.treeHasError = false → d.validateRaises = false) ∧
     tryInferArgs scoreLtFalse "updateMany" valUMC1 argUMC1 tUMC1 ⟨none⟩
       = some (Arg.make "updateMany" .crash false none (some argUMC1) (some tUMC1)) ∧
     ArgValue.anyError .crash = true) :=
  claim1_validate_raises_characterization _

def dmmfEmptyQuery : DMMFHelper := ⟨.mk "Query" [], .mk "Mutation" [], []⟩

theorem selectionStep_unknown {scoreLt dmmf outputType path context acc name value}
    (h : (OutTy.fieldsOf outputType).find? (fun f => f.name = name) = none) :
    selectionStep scoreLt dmmf outputType path context acc name value =
      acc ++ [Field.mk name none (some [])
        (some (.invalidFieldName outputType.nameOf name
          (getSuggestion name ((OutTy.fieldsOf outputType).map SchemaField.name))
          outputType false false)) none] := by
  rw [selectionStep]
  split
  · rfl
  · rename_i field hf
    rw [h] at hf
    cases hf

/-- Counterexample for C1 as frozen: compiling an unknown root field
produces a document whose tree contains an error (the root field's own
`invalidFieldName`), yet the validation entry point does not raise. -/
theorem claim1_counterexample :
    (makeDocument scoreLtFalse dmmfEmptyQuery .query "bad" (.obj []) none).treeHasError
      = true ∧
    (makeDocument scoreLtFalse dmmfEmptyQuery .query "bad" (.obj []) none).validateRaises
      = false := by
  have h : makeDocument scoreLtFalse dmmfEmptyQuery .query "bad" (.obj []) none =
      Document.mk .query [Field.mk "bad" none (some [])
        (some (.invalidFieldName "Query" "bad" none (.objT (.mk "Query" [])) false false))
        none] := by
    simp only [makeDocument, dmmfEmptyQuery]
    rw [selectionToFields]
    simp only [applyComputedFieldsToSelection, JsValue.entries, List.foldl]
    rw [selectionStep_unknown (by rfl)]
    rfl
  rw [h]
  exact ⟨by decide, by decide⟩


/-! ### Claim 3 -/

def selC3 : JsValue := .obj [("where", .obj [("AND", .obj [("id", .int 5)])])]

def inpWhereC3 : InputType := .mk "UserWhereInput" ⟨none, none, none⟩ none []

def badArgC3 : Arg :=
  Arg.make "bad" (.raw (.int 1)) false
    (some (.invalidName "bad" (.int 1) none none inpWhereC3 none none)) none none

def andArgC3 : Arg :=
  Arg.make "AND" (.listV [.argsE (Args.mk [badArgC3])]) false none none none

/-- Claim C3 fails on the code: `Arg.collectErrors` emits list indices as
strings (`String(index)`), while `normalizePath` only ever removes a key
that is strictly equal to the number `0`; under strict equality the string
`"0"` never matches, so the auto-wrap index is kept (`where.AND.0.bad`
instead of `where.AND.bad`).  Had the index been the number `0`, the walk
would have dropped it exactly as the claim (and the method's own doc
comment) describes — the third conjunct shows the dead normalization. -/
theorem claim3_normalizePath_zero_index_dead :
    (andArgC3.collectErrors.map ArgErrorRec.path = [[.str "AND", .str "0", .str "bad"]]) ∧
    (normalizePath [.str "where", .str "AND", .str "0", .str "id"] selC3
      = [.str "where", .str "AND", .str "0", .str "id"]) ∧
    (normalizePath [.str "where", .str "AND", .num 0, .str "id"] selC3
      = [.str "where", .str "AND", .str "id"]) := by
  refine ⟨by decide, by decide, by decide⟩

/-! ### Claim 7 -/

/-- The per-entry step drops a known field whose selection value is the
literal `false`, emitting neither a `Field` nor an error. -/
theorem selectionStep_false {scoreLt : Cand → Cand → Bool} {dmmf : DMMFHelper}
    {outputType : OutTy} {path : List String} {context : MakeDocumentContext}
    {acc : List Field} {name : String}
    (h : ((OutTy.fieldsOf outputType).find? (fun f => f.name = name)).isSome) :
    selectionStep scoreLt dmmf outputType path context acc name (.bool false) = acc := by
  obtain ⟨field, hfind⟩ := Option.isSome_iff_exists.mp h
  rw [selectionStep]
  split
  · rename_i hf
    rw [hfind] at hf
    cases hf
  · rename_i field2 hf
    rw [hfind] at hf
    injection hf with he
    subst he
    simp [JsValue.isBoolean, JsValue.isFalseLit]

/-- Claim C7 (amended): a selection value that is strictly the literal
`false` on a known field is silently omitted — removing such an entry from
the selection leaves the produced field list unchanged.  Other falsy values
are not omitted (see the counterexample, where `0` produces an
`invalidFieldType` error field). -/
theorem claim7_false_literal_omitted (scoreLt : Cand → Cand → Bool)
    (dmmf : DMMFHelper) (sf : SchemaField) (path : List String)
    (context : MakeDocumentContext) (pre post : List (String × JsValue))
    (name : String)
    (h : ((OutTy.fieldsOf sf.outType).find? (fun f => f.name = name)).isSome) :
    selectionToFields scoreLt dmmf (.obj (pre ++ (name, JsValue.bool false) :: post))
        sf path context
      = selectionToFields scoreLt dmmf (.obj (pre ++ post)) sf path context := by
  rw [selectionToFields, selectionToFields]
  simp only [applyComputedFieldsToSelection, JsValue.entries]
  rw [List.foldl_append, List.foldl_append, List.foldl_cons]
  rw [selectionStep_false h]

def userC7 : OutputType := .mk "User" [.mk "age" [] false .scalar none (.scalarName "Int")]

def rootFieldC7 : SchemaField :=
  .mk "query" [] false .outputObjectTypes none (.objT userC7)

def dmmfPlain : DMMFHelper := ⟨.mk "Query" [], .mk "Mutation" [], []⟩

/-- Counterexample for C7 as frozen: the falsy (but not `false`) selection
value `0` on the known scalar field `age` is not omitted — it produces a
`Field` carrying an `invalidFieldType` error. -/
theorem claim7_counterexample :
    (JsValue.int 0).truthy = false ∧
    selectionToFields scoreLtFalse dmmfPlain (.obj [("age", .int 0)]) rootFieldC7 [] ⟨none⟩
      = [Field.mk "age" none (some [])
          (some (.invalidFieldType "User" "age" (.int 0))) none] := by
  refine ⟨by decide, ?_⟩
  rw [selectionToFields]
  simp only [applyComputedFieldsToSelection, JsValue.entries, List.foldl]
  rw [selectionStep]
  split
  · rename_i hf
    rw [show (OutTy.fieldsOf rootFieldC7.outType).find? (fun f => f.name = "age")
        = some (.mk "age" [] false .scalar none (.scalarName "Int")) from rfl] at hf
    cases hf
  · rename_i field hf
    rw [show (OutTy.fieldsOf rootFieldC7.outType).find? (fun f => f.name = "age")
        = some (.mk "age" [] false .scalar none (.scalarName "Int")) from rfl] at hf
    injection hf with he
    subst he
    simp [JsValue.isBoolean, SchemaField.location, SchemaField.args, OutTy.nameOf,
      rootFieldC7, SchemaField.outType, userC7, OutputType.name]

/-- Witness for C7: removing the `age: false` entry (a known field set to
the literal `false`) does not change the compiled field list. -/
theorem claim7_witness :
    (((OutTy.fieldsOf rootFieldC7.outType).find? (fun f => f.name = "age")).isSome) ∧
    selectionToFields scoreLtFalse dmmfPlain (.obj [("age", JsValue.bool false)])
        rootFieldC7 [] ⟨none⟩
      = selectionToFields scoreLtFalse dmmfPlain (.obj []) rootFieldC7 [] ⟨none⟩ :=
  ⟨by decide, claim7_false_literal_omitted scoreLtFalse dmmfPlain rootFieldC7 [] ⟨none⟩
    [] [] "age" (by decide)⟩


/-! ### Claim 8 -/

theorem truthy_not_falseLit {v : JsValue} (h : v.truthy = true) :
    v.isFalseLit = false := by
  cases v <;> try rfl
  rename_i b
  cases b
  · simp [JsValue.truthy] at h
  · rfl

set_option maxHeartbeats 1600000 in
/-- The per-entry step produces exactly one field whenever the value
carries no truthy `include` clause and is not the literal `false`. -/
theorem selectionStep_count {scoreLt : Cand → Cand → Bool} {dmmf : DMMFHelper}
    {outputType : OutTy} {path : List String} {context : MakeDocumentContext}
    {acc : List Field} {name : String} {value : JsValue}
    (hinc : (value.get "include").truthy = false)
    (hfalse : value.isFalseLit = false) :
    (selectionStep scoreLt dmmf outputType path context acc name value).length
      = acc.length + 1 := by
  rw [selectionStep]
  split
  · simp
  · rename_i field hf
    simp only [hfalse, hinc, Bool.and_false, Bool.false_and, if_false]
    split_ifs <;> simp_all [List.length_append]

/-- Claim C8 (amended): the compiled document has exactly one root field
whenever the root selection value carries no truthy `include` clause.  With
an `include` clause listing invalid keys, one root field per invalid key is
produced instead (see the counterexample). -/
theorem claim8_single_root_without_include (scoreLt : Cand → Cand → Bool)
    (dmmf : DMMFHelper) (rootTypeName : OpKind) (rootField : String)
    (select : JsValue) (modelName : Option String)
    (hinc : (select.get "include").truthy = false) :
    (makeDocument scoreLt dmmf rootTypeName rootField select modelName).children.length
      = 1 := by
  simp only [makeDocument]
  rw [selectionToFields]
  simp only [applyComputedFieldsToSelection, JsValue.entries, List.foldl]
  by_cases hs : select.truthy
  · rw [if_neg (by simp [hs])]
    rw [selectionStep_count hinc (truthy_not_falseLit hs)]
    rfl
  · rw [if_pos (by simp [hs])]
    rw [selectionStep_count (by decide) (by decide)]
    rfl

def userC8 : OutputType := .mk "User" [.mk "name" [] false .scalar none (.scalarName "String")]

def queryC8 : OutputType :=
  .mk "Query" [.mk "findManyUser" [] false .outputObjectTypes (some "model") (.objT userC8)]

def dmmfC8 : DMMFHelper := ⟨queryC8, .mk "Mutation" [], []⟩

def selC8 : JsValue := .obj [("include", .obj [("p", .bool true), ("q", .bool true)])]

/-- Counterexample for C8 as frozen: an `include` clause with two invalid
keys on the root field makes `makeDocument` produce two root fields. -/
theorem claim8_counterexample :
    (makeDocument scoreLtFalse dmmfC8 .query "findManyUser" selC8 none).children.length
      = 2 := by
  simp only [makeDocument, dmmfC8, selC8]
  rw [selectionToFields]
  simp only [applyComputedFieldsToSelection, JsValue.entries, List.foldl]
  rw [selectionStep]
  split
  · rename_i hf
    rw [show (OutTy.fieldsOf (SchemaField.mk OpKind.query.opName [] false
        .outputObjectTypes none (.objT queryC8)).outType).find?
          (fun f => f.name = "findManyUser")
        = some (.mk "findManyUser" [] false .outputObjectTypes (some "model") (.objT userC8))
        from rfl] at hf
    cases hf
  · rename_i field hf
    rw [show (OutTy.fieldsOf (SchemaField.mk OpKind.query.opName [] false
        .outputObjectTypes none (.objT queryC8)).outType).find?
          (fun f => f.name = "findManyUser")
        = some (.mk "findManyUser" [] false .outputObjectTypes (some "model") (.objT userC8))
        from rfl] at hf
    injection hf with he
    subst he
    simp [JsValue.isBoolean, JsValue.isFalseLit, SchemaField.location, SchemaField.args,
      JsValue.get, JsValue.truthy, JsValue.keys, JsValue.entries, OutTy.fieldsOf,
      SchemaField.outType, userC8, SchemaField.name, JsValue.typeofObject,
      OutputType.fields, SchemaField.location]

/-- Witness for C8: a root selection without an `include` clause compiles
to exactly one root field. -/
theorem claim8_witness :
    ((JsValue.obj [("take", .int 1)]).get "include").truthy = false ∧
    (makeDocument scoreLtFalse dmmfC8 .query "findManyUser"
        (.obj [("take", .int 1)]) none).children.length = 1 :=
  ⟨by decide, claim8_single_root_without_include scoreLtFalse dmmfC8 .query "findManyUser"
    (.obj [("take", .int 1)]) none (by decide)⟩

/-! ### C4: `null` handling of `tryInferArgs` -/

/-- `null` passes the ordered scalar acceptance rules against every
declared kind: the dedicated `value === null` rule fires when no earlier
rule does. -/
theorem scalarAcceptNoRec_null (t : SchemaArgInputType)
    (ctx : MakeDocumentContext) : scalarAcceptNoRec .null t ctx = true := by
  simp [scalarAcceptNoRec, JsValue.isNull]

/-- `null` passes the source's scalar acceptance: the dedicated
`value === null` rule fires when no earlier rule does. -/
theorem hasCorrectScalarType_null (t : SchemaArgInputType)
    (ctx : MakeDocumentContext) : hasCorrectScalarType .null t ctx = true := by
  change (if scalarAcceptNoRec JsValue.null t ctx = true then true
      else if t.isList = true then false else false) = true
  rw [scalarAcceptNoRec_null]
  simp

def tIntC4 : SchemaArgInputType := .mk false .scalar (.scalarT "Int")

def argReqC4 : SchemaArg := .mk "x" true false [tIntC4]

def argOptC4 : SchemaArg := .mk "w" false false [tIntC4]

/-- C4: a `null` value for an argument declared non-nullable and
non-required whose candidate type has no at-least-one constraint compiles
to an `Arg` carrying `invalidNullArg` (first conjunct).  Contrary to the
claim's second half, a required argument explicitly set to `null` against
a non-list scalar/enum candidate compiles with no error at all: the `null`
guard demands `!isRequired` and the scalar path accepts `null`
unconditionally (second conjunct). -/
theorem claim4_null_handling (scoreLt : Cand → Cand → Bool) (key : String)
    (arg : SchemaArg) (t : SchemaArgInputType) (ctx : MakeDocumentContext) :
    (arg.isNullable = false → arg.isRequired = false → atLeastOneCheck t = false →
      tryInferArgs scoreLt key .null arg t ctx
        = some (Arg.make key (.raw .null) (t.location = .enumTypes)
            (some (.invalidNullArg key arg.inputTypes false false)) none (some t))) ∧
    (arg.isRequired = true → t.isList = false → isInputArgType t.type = false →
      (tryInferArgs scoreLt key .null arg t ctx).map Arg.error = some none) := by
  constructor
  · intro h1 h2 h3
    rw [tryInferArgs]
    simp [JsValue.isUndef, JsValue.isNull, h1, h2, h3]
  · intro h1 h2 h3
    obtain ⟨il, loc, ty⟩ := t
    simp only [SchemaArgInputType.isList] at h2
    subst h2
    rw [tryInferArgs]
    cases ty with
    | inputT t' => simp [isInputArgType, SchemaArgInputType.type] at h3
    | scalarT s =>
      simp [JsValue.isUndef, JsValue.isNull, h1, SchemaArgInputType.isList,
        SchemaArgInputType.type, scalarToArg, hasCorrectScalarType_null,
        Arg.make, Arg.error]
    | enumT n vs =>
      simp [JsValue.isUndef, JsValue.isNull, h1, SchemaArgInputType.isList,
        SchemaArgInputType.type, scalarToArg, hasCorrectScalarType_null,
        Arg.make, Arg.error]

/-- Counterexample to C4 as stated: a required `Int` argument explicitly
set to `null` compiles with no error at all, not an `invalidNullArg`. -/
theorem claim4_counterexample :
    (tryInferArgs scoreLtFalse "x" .null argReqC4 tIntC4 ⟨none⟩).map Arg.error
      = some none := by
  rw [tryInferArgs]
  simp [JsValue.isUndef, JsValue.isNull, argReqC4, SchemaArg.isRequired,
    SchemaArg.isNullable, tIntC4, SchemaArgInputType.isList,
    SchemaArgInputType.type, scalarToArg, hasCorrectScalarType_null,
    Arg.make, Arg.error]

/-- Witness for C4 at concrete inputs: an optional non-nullable argument
set to `null` gets `invalidNullArg`, and a required one compiles with no
error. -/
theorem claim4_witness :
    (tryInferArgs scoreLtFalse "w" .null argOptC4 tIntC4 ⟨none⟩
      = some (Arg.make "w" (.raw .null) (tIntC4.location = .enumTypes)
          (some (.invalidNullArg "w" argOptC4.inputTypes false false))
          none (some tIntC4))) ∧
    (tryInferArgs scoreLtFalse "x" .null argReqC4 tIntC4 ⟨none⟩).map Arg.error
      = some none :=
  ⟨(claim4_null_handling scoreLtFalse "w" argOptC4 tIntC4 ⟨none⟩).1 rfl rfl rfl,
   (claim4_null_handling scoreLtFalse "x" argReqC4 tIntC4 ⟨none⟩).2 rfl rfl rfl⟩

/-! ### C9: auto-wrap of non-list values for list-shaped declared types -/

theorem wrapList_wraps {value : JsValue} {t : SchemaArgInputType} {key : String}
    (h1 : value.isArray = false) (h2 : t.isList = true)
    (h3 : key ≠ "updateMany") : wrapList value t key = .list [value] := by
  unfold wrapList
  simp [h1, h2, h3]

theorem wrapList_array {value : JsValue} {t : SchemaArgInputType} {key : String}
    (h : value.isArray = true) : wrapList value t key = value := by
  unfold wrapList
  simp [h]

def tIntListC9 : SchemaArgInputType := .mk true .scalar (.scalarT "Int")

def argC9 : SchemaArg := .mk "vals" false false [tIntListC9]

/-- C9: against a list-shaped declared input type, a provided non-array
value is wrapped into a singleton list (first conjunct), the key
`updateMany` is never auto-wrapped (second conjunct), and compiling the
bare value coincides with compiling its singleton-list wrap (third
conjunct). -/
theorem claim9_autowrap (scoreLt : Cand → Cand → Bool) (key : String)
    (v : JsValue) (arg : SchemaArg) (t : SchemaArgInputType)
    (ctx : MakeDocumentContext)
    (hl : t.isList = true) (hv : v.isArray = false) (hu : v.isUndef = false)
    (hk : key ≠ "updateMany")
    (hng : (v.isNull && !arg.isNullable && !arg.isRequired
        && !atLeastOneCheck t) = false) :
    wrapList v t key = .list [v] ∧
    (∀ t2 : SchemaArgInputType, ∀ v2 : JsValue, wrapList v2 t2 "updateMany" = v2) ∧
    tryInferArgs scoreLt key v arg t ctx
      = tryInferArgs scoreLt key (.list [v]) arg t ctx := by
  refine ⟨wrapList_wraps hv hl hk, fun t2 v2 => by simp [wrapList], ?_⟩
  rw [tryInferArgs, tryInferArgs]
  rw [wrapList_wraps hv hl hk,
    wrapList_array (show (JsValue.list [v]).isArray = true from rfl)]
  simp [hu, hng, hl,
    show (JsValue.list [v]).isUndef = false from rfl,
    show (JsValue.list [v]).isNull = false from rfl,
    show (JsValue.list [v]).isArray = true from rfl]

/-- Witness for C9 at concrete inputs: `5` wraps to `[5]` for a
`List<Int>`-typed argument, an `updateMany` value stays bare, and the
compiled results of `5` and `[5]` coincide. -/
theorem claim9_witness :
    wrapList (.int 5) tIntListC9 "vals" = .list [.int 5] ∧
    wrapList (.int 7) tIntListC9 "updateMany" = .int 7 ∧
    tryInferArgs scoreLtFalse "vals" (.int 5) argC9 tIntListC9 ⟨none⟩
      = tryInferArgs scoreLtFalse "vals" (.list [.int 5]) argC9 tIntListC9 ⟨none⟩ := by
  obtain ⟨a, b, c⟩ := claim9_autowrap scoreLtFalse "vals" (.int 5) argC9 tIntListC9
    ⟨none⟩ rfl rfl rfl (by decide) (by decide)
  exact ⟨a, b tIntListC9 (.int 7), c⟩

/-! ### C5: `undefined` handling of `valueToArg` -/

theorem mem_insertByLt {lt : Cand → Cand → Bool} {c d : Cand} {l : List Cand}
    (h : d ∈ insertByLt lt c l) : d = c ∨ d ∈ l := by
  induction l with
  | nil => simpa [insertByLt] using h
  | cons e es ih =>
    unfold insertByLt at h
    split_ifs at h
    · simpa using h
    · rcases List.mem_cons.mp h with h1 | h2
      · exact Or.inr (List.mem_cons.mpr (Or.inl h1))
      · rcases ih h2 with h3 | h4
        · exact Or.inl h3
        · exact Or.inr (List.mem_cons.mpr (Or.inr h4))

theorem insertByLt_length (lt : Cand → Cand → Bool) (c : Cand) (l : List Cand) :
    (insertByLt lt c l).length = l.length + 1 := by
  induction l with
  | nil => rfl
  | cons e es ih =>
    unfold insertByLt
    split_ifs <;> simp [ih]

theorem foldl_insertByLt_length (lt : Cand → Cand → Bool) :
    ∀ (l acc : List Cand),
      (l.foldl (fun a c => insertByLt lt c a) acc).length = acc.length + l.length := by
  intro l
  induction l with
  | nil => intro acc; rfl
  | cons x xs ih =>
    intro acc
    simp only [List.foldl_cons, List.length_cons]
    rw [ih, insertByLt_length]
    omega

theorem mem_foldl_insertByLt {lt : Cand → Cand → Bool} {d : Cand} :
    ∀ {l acc : List Cand}, d ∈ l.foldl (fun a c => insertByLt lt c a) acc →
      d ∈ acc ∨ d ∈ l := by
  intro l
  induction l with
  | nil => intro acc h; exact Or.inl h
  | cons x xs ih =>
    intro acc h
    simp only [List.foldl_cons] at h
    rcases ih h with h1 | h2
    · rcases mem_insertByLt h1 with h3 | h4
      · exact Or.inr (List.mem_cons.mpr (Or.inl h3))
      · exact Or.inl h4
    · exact Or.inr (List.mem_cons.mpr (Or.inr h2))

theorem pickLowest_mem (lt : Cand → Cand → Bool) {l : List Cand} (h : l ≠ []) :
    ∃ c ∈ l, pickLowest lt l = some c := by
  have hlen : (sortByLt lt l).length = l.length := by
    unfold sortByLt
    rw [foldl_insertByLt_length]
    simp
  cases hs : sortByLt lt l with
  | nil =>
    rw [hs] at hlen
    cases l with
    | nil => exact absurd rfl h
    | cons a as => simp at hlen
  | cons c cs =>
    refine ⟨c, ?_, ?_⟩
    · have : c ∈ sortByLt lt l := by rw [hs]; exact List.mem_cons_self c cs
      rcases mem_foldl_insertByLt this with h1 | h2
      · cases h1
      · exact h2
    · unfold pickLowest
      rw [hs]
      rfl

def tStrC5 : SchemaArgInputType := .mk false .scalar (.scalarT "String")

def fieldC5 : SchemaArg := .mk "email" false false [tStrC5]

def argReqC5 : SchemaArg := .mk "q" true false [tStrC5]

def inputTC5 : InputType := .mk "UserWhere" ⟨none, none, none⟩ none [fieldC5]

/-- C5: a provided `undefined` compiles to no `Arg` for a non-required
argument (first conjunct); for a required argument with a non-empty
declared union it compiles to an `Arg` carrying a `missingArg` error
(second conjunct); and an object entry whose value is `undefined` is
omitted from the compiled `Args` of its enclosing input object (third
conjunct, at a one-field input type). -/
theorem claim5_undefined_handling (scoreLt : Cand → Cand → Bool) (key : String)
    (arg : SchemaArg) (ctx : MakeDocumentContext) :
    (arg.isRequired = false → valueToArg scoreLt key .undef arg ctx = none) ∧
    (arg.isRequired = true → arg.inputTypes ≠ [] →
      ∃ t ∈ arg.inputTypes,
        valueToArg scoreLt key .undef arg ctx = some (missingArgFor key arg t) ∧
        (missingArgFor key arg t).error
          = some (.missingArg key arg false false)) ∧
    objectToArgs scoreLt (.obj [("email", .undef)]) inputTC5 ctx none none
      = Args.mk [] := by
  have hload : ∀ (k : String) (a2 : SchemaArg),
      valueToArg scoreLt k .undef a2 ctx = valueToArgUndef scoreLt k a2 := by
    intro k a2
    rw [valueToArg]
    simp [JsValue.isUndef]
  have hnone : ∀ (k : String) (a2 : SchemaArg), a2.isRequired = false →
      valueToArg scoreLt k .undef a2 ctx = none := by
    intro k a2 hr
    rw [hload]
    unfold valueToArgUndef
    simp [hr]
  refine ⟨hnone key arg, ?_, ?_⟩
  · intro h1 hne
    rw [hload]
    unfold valueToArgUndef
    rw [h1]
    cases harg : arg.inputTypes with
    | nil => exact absurd harg hne
    | cons t rest =>
      simp only [Bool.not_true, Bool.false_eq_true, if_false]
      obtain ⟨c, hc, hpick⟩ := @pickLowest_mem scoreLt
        ((t :: rest).map fun t =>
          let a := missingArgFor key arg t
          Cand.mk a a.collectErrors)
        (by simp)
      rw [hpick]
      obtain ⟨t2, ht2, hc2⟩ := List.mem_map.mp hc
      refine ⟨t2, ht2, ?_, ?_⟩
      · rw [← hc2]
      · rfl
  · rw [objectToArgs]
    simp [inputTC5, InputType.metaSource, InputType.fields, InputType.constraints,
      cleanObject, JsValue.isUndef, List.filter, JsValue.truthy, JsValue.entries,
      unionByKey, SchemaArg.name, fieldC5, List.attach, List.attachWith,
      List.pmap, List.find?,
      hnone "email" (.mk "email" false false [tStrC5]) rfl]

/-- Witness for C5 at concrete inputs: `undefined` for the optional
`email` argument compiles to nothing, `undefined` for the required `q`
argument compiles to a `missingArg` error, and the one-field object with
an `undefined` entry compiles to an empty `Args`. -/
theorem claim5_witness :
    valueToArg scoreLtFalse "email" .undef fieldC5 ⟨none⟩ = none ∧
    (∃ t ∈ argReqC5.inputTypes,
      valueToArg scoreLtFalse "q" .undef argReqC5 ⟨none⟩
        = some (missingArgFor "q" argReqC5 t) ∧
      (missingArgFor "q" argReqC5 t).error
        = some (.missingArg "q" argReqC5 false false)) ∧
    objectToArgs scoreLtFalse (.obj [("email", .undef)]) inputTC5 ⟨none⟩ none none
      = Args.mk [] :=
  ⟨(claim5_undefined_handling scoreLtFalse "email" fieldC5 ⟨none⟩).1 rfl,
   (claim5_undefined_handling scoreLtFalse "q" argReqC5 ⟨none⟩).2.1 rfl
     (by simp [argReqC5, SchemaArg.inputTypes]),
   (claim5_undefined_handling scoreLtFalse "x" fieldC5 ⟨none⟩).2.2⟩

/-! ### C6: the scalar acceptance relation against the claim's rule list -/

def JsValue.isEmptyList : JsValue → Bool
  | .list [] => true
  | _ => false

/-- Schemas whose enum type names are nonempty and distinct from the
inferred empty-list kind string; the inferred-kind strings of such a
schema never collide with `"List<>"` or the empty string. -/
def enumNameOk (it : SchemaArgInputType) : Bool :=
  match it.type with
  | .enumT n _ => n ≠ "List<>" && n ≠ ""
  | _ => true

mutual

/-- The acceptance relation exactly as the claim words it: inferred kind
equal to the declared kind, the listed one-directional subtype rules, an
empty list into any list kind, the open `Json` kind (any value that is not
a tagged enum value or field-ref marker), `null` always, and a list
against a list kind element-wise. -/
def scalarAcceptClaim (value : JsValue) (it : SchemaArgInputType)
    (ctx : MakeDocumentContext) : Bool :=
  let e := getExpectedType it ctx it.isList
  let g := getGraphQLType value (some it)
  decide (g = e)
  || (decide (g = "Int") && decide (e = "BigInt"))
  || (decide (g = "Int") && decide (e = "Float"))
  || (decide (g = "Int") && decide (e = "Decimal"))
  || (decide (g = "Float") && decide (e = "Decimal"))
  || (decide (g = "String") && decide (e = "Decimal") && value.isDecimalStr)
  || (decide (g = "DateTime") && decide (e = "String"))
  || (decide (g = "UUID") && decide (e = "String"))
  || (decide (g = "String") && decide (e = "ID"))
  || (decide (g = "Int") && decide (e = "Long"))
  || (value.isEmptyList && it.isList)
  || (decide (e = "Json") && !value.isObjectEnum && !value.isFieldRef)
  || value.isNull
  || (it.isList && match value with
      | .list xs => scalarAcceptClaimList xs it ctx
      | _ => false)

def scalarAcceptClaimList (xs : List JsValue) (it : SchemaArgInputType)
    (ctx : MakeDocumentContext) : Bool :=
  match xs with
  | [] => true
  | v :: vs =>
    scalarAcceptClaim v (.mk false it.location it.type) ctx
      && scalarAcceptClaimList vs it ctx

end

mutual

/-- The claim's acceptance relation amended at its one divergence from the
code: the open `Json` kind also rejects symbol values. -/
def scalarAcceptClaimFix (value : JsValue) (it : SchemaArgInputType)
    (ctx : MakeDocumentContext) : Bool :=
  let e := getExpectedType it ctx it.isList
  let g := getGraphQLType value (some it)
  decide (g = e)
  || (decide (g = "Int") && decide (e = "BigInt"))
  || (decide (g = "Int") && decide (e = "Float"))
  || (decide (g = "Int") && decide (e = "Decimal"))
  || (decide (g = "Float") && decide (e = "Decimal"))
  || (decide (g = "String") && decide (e = "Decimal") && value.isDecimalStr)
  || (decide (g = "DateTime") && decide (e = "String"))
  || (decide (g = "UUID") && decide (e = "String"))
  || (decide (g = "String") && decide (e = "ID"))
  || (decide (g = "Int") && decide (e = "Long"))
  || (value.isEmptyList && it.isList)
  || (decide (e = "Json") && decide (g ≠ "Symbol")
      && !value.isObjectEnum && !value.isFieldRef)
  || value.isNull
  || (it.isList && match value with
      | .list xs => scalarAcceptClaimFixList xs it ctx
      | _ => false)

def scalarAcceptClaimFixList (xs : List JsValue) (it : SchemaArgInputType)
    (ctx : MakeDocumentContext) : Bool :=
  match xs with
  | [] => true
  | v :: vs =>
    scalarAcceptClaimFix v (.mk false it.location it.type) ctx
      && scalarAcceptClaimFixList vs it ctx

end

theorem hcst_unfold (v : JsValue) (t : SchemaArgInputType)
    (ctx : MakeDocumentContext) :
    hasCorrectScalarType v t ctx
      = (if scalarAcceptNoRec v t ctx then true
         else if t.isList then
           match v with
           | .list xs => hasCorrectScalarTypeList xs t ctx
           | _ => false
         else false) := by
  cases v <;> rfl

theorem hcstl_unfold (xs : List JsValue) (t : SchemaArgInputType)
    (ctx : MakeDocumentContext) :
    hasCorrectScalarTypeList xs t ctx
      = (match xs with
         | [] => true
         | v :: vs =>
           hasCorrectScalarType v (.mk false t.location t.type) ctx
             && hasCorrectScalarTypeList vs t ctx) := by
  cases xs <;> rfl

theorem claimFix_unfold (v : JsValue) (t : SchemaArgInputType)
    (ctx : MakeDocumentContext) :
    scalarAcceptClaimFix v t ctx
      = (let e := getExpectedType t ctx t.isList
         let g := getGraphQLType v (some t)
         decide (g = e)
         || (decide (g = "Int") && decide (e = "BigInt"))
         || (decide (g = "Int") && decide (e = "Float"))
         || (decide (g = "Int") && decide (e = "Decimal"))
         || (decide (g = "Float") && decide (e = "Decimal"))
         || (decide (g = "String") && decide (e = "Decimal") && v.isDecimalStr)
         || (decide (g = "DateTime") && decide (e = "String"))
         || (decide (g = "UUID") && decide (e = "String"))
         || (decide (g = "String") && decide (e = "ID"))
         || (decide (g = "Int") && decide (e = "Long"))
         || (v.isEmptyList && t.isList)
         || (decide (e = "Json") && decide (g ≠ "Symbol")
             && !v.isObjectEnum && !v.isFieldRef)
         || v.isNull
         || (t.isList && match v with
             | .list xs => scalarAcceptClaimFixList xs t ctx
             | _ => false)) := by
  cases v <;> rfl

theorem claimFixList_unfold (xs : List JsValue) (t : SchemaArgInputType)
    (ctx : MakeDocumentContext) :
    scalarAcceptClaimFixList xs t ctx
      = (match xs with
         | [] => true
         | v :: vs =>
           scalarAcceptClaimFix v (.mk false t.location t.type) ctx
             && scalarAcceptClaimFixList vs t ctx) := by
  cases xs <;> rfl

theorem ggt_str (s : String) (it : Option SchemaArgInputType) :
    getGraphQLType (.str s) it
      = (match it with
         | some i =>
           match i.location, i.type with
           | .enumTypes, .enumT n vals => if s ∈ vals then n else "String"
           | _, _ => "String"
         | none => "String") := rfl

theorem ggt_list (xs : List JsValue) (it : Option SchemaArgInputType) :
    getGraphQLType (.list xs) it
      = "List<" ++ joinSep (dedupKeepFirst (getGraphQLTypeList xs it)) ++ ">" :=
  rfl

theorem ggtl_nil (it : Option SchemaArgInputType) :
    getGraphQLTypeList [] it = [] := rfl

theorem ggtl_cons (v : JsValue) (vs : List JsValue)
    (it : Option SchemaArgInputType) :
    getGraphQLTypeList (v :: vs) it
      = getGraphQLType v it :: getGraphQLTypeList vs it := rfl

theorem joinSep_ne_empty : ∀ (ms : List String), ms ≠ [] →
    (∀ m ∈ ms, m ≠ "") → joinSep ms ≠ ""
  | [], h, _ => absurd rfl h
  | [m], _, hall => by simpa [joinSep] using hall m (by simp)
  | m :: m2 :: rest, _, _ => by
    intro he
    have hlen := congrArg String.length he
    rw [show joinSep (m :: m2 :: rest) = m ++ " | " ++ joinSep (m2 :: rest)
      from rfl] at hlen
    rw [String.length_append, String.length_append] at hlen
    have h3 : (" | ").length = 3 := rfl
    have h0 : ("" : String).length = 0 := rfl
    omega

theorem dedupGo_length : ∀ (l acc : List String),
    acc.length ≤ (dedupKeepFirst.go acc l).length := by
  intro l
  induction l with
  | nil => intro acc; exact le_refl _
  | cons x xs ih =>
    intro acc
    have step := ih (if acc.contains x then acc else acc ++ [x])
    refine le_trans ?_ step
    split_ifs
    · exact le_refl _
    · simp

theorem mem_dedupGo {d : String} : ∀ {l acc : List String},
    d ∈ dedupKeepFirst.go acc l → d ∈ acc ∨ d ∈ l := by
  intro l
  induction l with
  | nil => intro acc h; exact Or.inl h
  | cons x xs ih =>
    intro acc h
    rcases ih h with h1 | h2
    · split_ifs at h1
      · exact Or.inl h1
      · rcases List.mem_append.mp h1 with h3 | h4
        · exact Or.inl h3
        · simp only [List.mem_singleton] at h4
          exact Or.inr (List.mem_cons.mpr (Or.inl h4))
    · exact Or.inr (List.mem_cons.mpr (Or.inr h2))

theorem dedup_ne_nil (a : String) (l : List String) :
    dedupKeepFirst (a :: l) ≠ [] := by
  intro he
  have h1 := dedupGo_length l [a]
  rw [show dedupKeepFirst.go [a] l = dedupKeepFirst (a :: l) from rfl, he] at h1
  simp at h1

theorem mem_dedup {d : String} {l : List String} (h : d ∈ dedupKeepFirst l) :
    d ∈ l := by
  rcases mem_dedupGo (show d ∈ dedupKeepFirst.go [] l from h) with h1 | h2
  · cases h1
  · exact h2

theorem mem_ggtl {d : String} {it : Option SchemaArgInputType} :
    ∀ {xs : List JsValue}, d ∈ getGraphQLTypeList xs it →
      ∃ u ∈ xs, d = getGraphQLType u it := by
  intro xs
  induction xs with
  | nil => intro h; rw [ggtl_nil] at h; cases h
  | cons x rest ih =>
    intro h
    rw [ggtl_cons] at h
    rcases List.mem_cons.mp h with h1 | h2
    · exact ⟨x, List.mem_cons_self x rest, h1⟩
    · obtain ⟨u, hu, he⟩ := ih h2
      exact ⟨u, List.mem_cons.mpr (Or.inr hu), he⟩

theorem string_ne_empty_of_length {s : String} (h : s.length ≠ 0) : s ≠ "" := by
  intro he
  rw [he] at h
  exact h rfl

theorem string_eq_empty_of_length {s : String} (h : s.length = 0) : s = "" := by
  obtain ⟨data⟩ := s
  cases data with
  | nil => rfl
  | cons c cs => simp [String.length] at h

theorem string_ne_of_beq_false {a b : String} (h : (a == b) = false) :
    a ≠ b := by
  intro he
  subst he
  rw [beq_self_eq_true] at h
  cases h

theorem ggt_ne_empty {il : Bool} {loc : FieldLocation} {ty : ArgType}
    (h : enumNameOk ⟨il, loc, ty⟩ = true) (v : JsValue) :
    getGraphQLType v (some ⟨il, loc, ty⟩) ≠ "" := by
  cases v <;> try exact string_ne_of_beq_false rfl
  case str s =>
    rw [ggt_str]
    cases loc <;> cases ty <;>
      simp only [SchemaArgInputType.location, SchemaArgInputType.type] <;>
      try exact string_ne_of_beq_false rfl
    case enumTypes.enumT n vals =>
      simp only [enumNameOk, SchemaArgInputType.type, Bool.and_eq_true,
        decide_eq_true_eq, ne_eq] at h
      split_ifs
      · exact h.2
      · exact string_ne_of_beq_false rfl

theorem ggt_eq_listEmpty {il : Bool} {loc : FieldLocation} {ty : ArgType}
    (h : enumNameOk ⟨il, loc, ty⟩ = true) (v : JsValue) :
    (getGraphQLType v (some ⟨il, loc, ty⟩) = "List<>")
      ↔ v.isEmptyList = true := by
  cases v <;>
    try (constructor <;> intro he <;>
      first
      | exact absurd he (string_ne_of_beq_false rfl)
      | cases he)
  case str s =>
    rw [ggt_str]
    cases loc <;> cases ty <;>
      simp only [SchemaArgInputType.location, SchemaArgInputType.type] <;>
      try (constructor <;> intro he <;>
        first
        | exact absurd he (string_ne_of_beq_false rfl)
        | cases he)
    case enumTypes.enumT n vals =>
      simp only [enumNameOk, SchemaArgInputType.type, Bool.and_eq_true,
        decide_eq_true_eq, ne_eq] at h
      split_ifs
      · constructor
        · intro he; exact absurd he h.1
        · intro he; cases he
      · constructor <;> intro he <;>
        first
        | exact absurd he (string_ne_of_beq_false rfl)
        | cases he
  case list xs =>
    rw [ggt_list]
    cases xs with
    | nil => constructor <;> (intro _; rfl)
    | cons x rest =>
      constructor
      · intro he
        exfalso
        have hm : joinSep (dedupKeepFirst
            (getGraphQLTypeList (x :: rest) (some ⟨il, loc, ty⟩))) ≠ "" := by
          apply joinSep_ne_empty
          · rw [ggtl_cons]
            exact dedup_ne_nil _ _
          · intro m hm2
            obtain ⟨u, _, he2⟩ := mem_ggtl (mem_dedup hm2)
            rw [he2]
            exact ggt_ne_empty h u
        have hlen := congrArg String.length he
        rw [String.length_append, String.length_append] at hlen
        have h5 : ("List<").length = 5 := rfl
        have h1 : (">").length = 1 := rfl
        have h6 : ("List<>").length = 6 := rfl
        exact hm (string_eq_empty_of_length (by omega))
      · intro he; cases he

theorem bool_if_or (A L M : Bool) :
    (if A = true then true else if L = true then M else false)
      = (A || (L && M)) := by
  cases A <;> cases L <;> cases M <;> rfl

theorem bool_eq_of_iff {a b : Bool} (h : a = true ↔ b = true) : a = b := by
  cases a <;> cases b <;> simp_all

theorem hcst_claimFix_aux : ∀ n : Nat, ∀ v : JsValue, sizeOf v ≤ n →
    ∀ (il : Bool) (loc : FieldLocation) (ty : ArgType)
      (ctx : MakeDocumentContext), enumNameOk ⟨il, loc, ty⟩ = true →
      hasCorrectScalarType v ⟨il, loc, ty⟩ ctx
        = scalarAcceptClaimFix v ⟨il, loc, ty⟩ ctx := by
  intro n
  induction n with
  | zero =>
    intro v hv
    exfalso
    cases v <;> simp at hv
  | succ n ih =>
    intro v hv il loc ty ctx h
    have hstrip : enumNameOk ⟨false, loc, ty⟩ = true := h
    have hlist : ∀ ys : List JsValue, sizeOf ys ≤ n →
        hasCorrectScalarTypeList ys ⟨il, loc, ty⟩ ctx
          = scalarAcceptClaimFixList ys ⟨il, loc, ty⟩ ctx := by
      intro ys
      induction ys with
      | nil => intro _; rw [hcstl_unfold, claimFixList_unfold]
      | cons y ys2 ihy =>
        intro hb
        have hb' : 1 + sizeOf y + sizeOf ys2 ≤ n := by simpa using hb
        rw [hcstl_unfold, claimFixList_unfold]
        dsimp only [SchemaArgInputType.location, SchemaArgInputType.type]
        rw [ih y (by omega) false loc ty ctx hstrip, ihy (by omega)]
    cases v
    case list xs =>
      have hxs : sizeOf xs ≤ n := by
        have : 1 + sizeOf xs ≤ n + 1 := by simpa using hv
        omega
      rw [hcst_unfold, claimFix_unfold]
      dsimp only
      rw [hlist xs hxs, bool_if_or]
      apply bool_eq_of_iff
      rw [scalarAcceptNoRec]
      simp only [Bool.or_eq_true, Bool.and_eq_true, Bool.not_eq_true',
        decide_eq_true_eq, ggt_eq_listEmpty h]
      itauto
    all_goals
      rw [hcst_unfold, claimFix_unfold]
      dsimp only
      rw [bool_if_or]
      apply bool_eq_of_iff
      rw [scalarAcceptNoRec]
      simp only [Bool.or_eq_true, Bool.and_eq_true, Bool.not_eq_true',
        decide_eq_true_eq, ggt_eq_listEmpty h]
      itauto

/-- C6 amended: over schemas whose enum names are nonempty and distinct
from the literal "List<>", the code's scalar acceptance coincides with the
claim's rule list once the open `Json` rule also excludes symbol values;
as stated (Json open to everything but tagged enum/field-ref markers) the
claim over-accepts symbols. -/
theorem claim6_scalar_acceptance (value : JsValue) (it : SchemaArgInputType)
    (ctx : MakeDocumentContext) (h : enumNameOk it = true) :
    hasCorrectScalarType value it ctx = scalarAcceptClaimFix value it ctx := by
  obtain ⟨il, loc, ty⟩ := it
  exact hcst_claimFix_aux (sizeOf value) value (le_refl _) il loc ty ctx h

/-- Counterexample to C6 as stated: a symbol value against the open Json
kind is rejected by the code but accepted by the claim's rule list. -/
theorem claim6_counterexample :
    hasCorrectScalarType .symbolV (.mk false .scalar (.scalarT "Json")) ⟨none⟩
      = false ∧
    scalarAcceptClaim .symbolV (.mk false .scalar (.scalarT "Json")) ⟨none⟩
      = true := by
  constructor
  · decide
  · decide

/-- Witness for C6 at a concrete input: a non-numeric string against the
`Int` kind, where code and amended claim agree (both reject). -/
theorem claim6_witness :
    enumNameOk (.mk false .scalar (.scalarT "Int")) = true ∧
    hasCorrectScalarType (.str "a") (.mk false .scalar (.scalarT "Int")) ⟨none⟩
      = scalarAcceptClaimFix (.str "a") (.mk false .scalar (.scalarT "Int")) ⟨none⟩ :=
  ⟨by decide, claim6_scalar_acceptance (.str "a")
    (.mk false .scalar (.scalarT "Int")) ⟨none⟩ (by decide)⟩

/-! ### C10: the result scalar remapper -/

/-- A child whose declared output kind is one of the wire-primitive
deserializer kinds. -/
def childWire (c : Field) : Bool :=
  match c.schemaField with
  | some csf =>
    match csf.outType.strName with
    | some t => isWirePrimitive t
    | none => false
  | none => false

/-- A child into which `mapScalars` recurses (an `outputObjectTypes`
schema field). -/
def childDescends (c : Field) : Bool :=
  match c.schemaField with
  | some csf => decide (csf.location = .outputObjectTypes)
  | none => false

/-- Children that neither carry a wire-primitive kind nor descend. -/
def inertChildren (cs : List Field) : Bool :=
  cs.all fun c => !childWire c && !childDescends c

theorem mapScalars_guard (f : Field) (v : JsValue)
    (h : v.truthy = false ∨ v.typeofObject = false) :
    mapScalars f v = some v := by
  obtain ⟨n, a, ch, er, sf⟩ := f
  cases ch with
  | none =>
    rw [mapScalars]
    intro a1 a2 a3 a4 a5 he
    injection he with h1 h2 h3 h4 h5
    exact Option.noConfusion h3
  | some cs =>
    cases sf with
    | none =>
      rw [mapScalars]
      intro a1 a2 a3 a4 a5 he
      injection he with h1 h2 h3 h4 h5
      exact Option.noConfusion h5
    | some s =>
      rw [mapScalars]
      rcases h with h | h <;> simp [h]

theorem find?_map_keyfix (n k : String) (f : JsValue → JsValue) :
    ∀ fs : List (String × JsValue),
      (fs.map fun p => if p.1 = n then (p.1, f p.2) else p).find?
          (fun p => p.1 = k)
        = (match fs.find? (fun p => p.1 = k) with
           | some p => some (if p.1 = n then (p.1, f p.2) else p)
           | none => none) := by
  intro fs
  induction fs with
  | nil => rfl
  | cons p rest ih =>
    simp only [List.map_cons]
    by_cases hp : p.1 = k
    · rw [show (List.find? (fun q => decide (q.1 = k))
            ((if p.1 = n then (p.1, f p.2) else p)
              :: List.map (fun p => if p.1 = n then (p.1, f p.2) else p) rest))
            = some (if p.1 = n then (p.1, f p.2) else p) from
          List.find?_cons_of_pos _ (by split <;> simpa using hp),
        show (List.find? (fun q => decide (q.1 = k)) (p :: rest)) = some p from
          List.find?_cons_of_pos _ (by simpa using hp)]
    · rw [show (List.find? (fun q => decide (q.1 = k))
            ((if p.1 = n then (p.1, f p.2) else p)
              :: List.map (fun p => if p.1 = n then (p.1, f p.2) else p) rest))
            = List.find? (fun q => decide (q.1 = k))
                (List.map (fun p => if p.1 = n then (p.1, f p.2) else p) rest) from
          List.find?_cons_of_neg _ (by split <;> simpa using hp),
        show (List.find? (fun q => decide (q.1 = k)) (p :: rest))
            = List.find? (fun q => decide (q.1 = k)) rest from
          List.find?_cons_of_neg _ (by simpa using hp)]
      exact ih

theorem get_updateEntry_ne {v : JsValue} {n k : String} (h : n ≠ k)
    (f : JsValue → JsValue) : (v.updateEntry n f).get k = v.get k := by
  cases v <;> try rfl
  case obj fs =>
    simp only [JsValue.updateEntry, JsValue.get, find?_map_keyfix]
    cases hf : fs.find? (fun p => decide (p.1 = k)) with
    | none => rfl
    | some q =>
      have hq := List.find?_some hf
      simp only [decide_eq_true_eq] at hq
      have hqn : ¬(q.1 = n) := by
        intro he
        exact h (by rw [← he, hq])
      simp [hqn]

theorem get_updateEntry_const {v : JsValue} {k : String} {w : JsValue}
    (hv : v.get k = w) : (v.updateEntry k fun _ => w).get k = w := by
  cases v <;> try exact hv
  case obj fs =>
    simp only [JsValue.get] at hv
    simp only [JsValue.updateEntry, JsValue.get]
    induction fs with
    | nil => exact hv
    | cons p rest ih =>
      by_cases hp : p.1 = k
      · rw [show ((p :: rest).map fun p => if p.1 = k then (p.1, w) else p)
            = (p.1, w) :: (rest.map fun p => if p.1 = k then (p.1, w) else p) from by
            simp [hp]]
        rw [show List.find? (fun q => decide (q.1 = k))
            ((p.1, w) :: (rest.map fun p => if p.1 = k then (p.1, w) else p))
            = some (p.1, w) from List.find?_cons_of_pos _ (by simpa using hp)]
      · rw [show ((p :: rest).map fun p => if p.1 = k then (p.1, w) else p)
            = p :: (rest.map fun p => if p.1 = k then (p.1, w) else p) from by
            simp [hp]]
        rw [show List.find? (fun q => decide (q.1 = k))
            (p :: (rest.map fun p => if p.1 = k then (p.1, w) else p))
            = List.find? (fun q => decide (q.1 = k))
                (rest.map fun p => if p.1 = k then (p.1, w) else p) from
            List.find?_cons_of_neg _ (by simpa using hp)]
        rw [show List.find? (fun q => decide (q.1 = k)) (p :: rest)
            = List.find? (fun q => decide (q.1 = k)) rest from
            List.find?_cons_of_neg _ (by simpa using hp)] at hv
        exact ih hv

theorem foldl_invariant {α β : Type _} (P : β → Prop) :
    ∀ (l : List α) (g : β → α → β) (b : β), P b →
      (∀ (x : β) (a : α), P x → P (g x a)) → P (l.foldl g b) := by
  intro l
  induction l with
  | nil => intro g b hb _; exact hb
  | cons x xs ih =>
    intro g b hb hstep
    exact ih g (g b x) (hstep b x hb) hstep

theorem propAccess_some {v : JsValue} {k : String} {cur : JsValue}
    (h : propAccess v k = some cur) : cur = v.get k := by
  cases v <;> simp_all [propAccess, JsValue.get]

theorem nullish_not_truthy {w : JsValue} (h : w.isUndef = true ∨ w.isNull = true) :
    w.truthy = false := by
  rcases h with h | h <;> cases w <;>
    simp_all [JsValue.isUndef, JsValue.isNull, JsValue.truthy]

theorem mapScalars_none_children (n : String) (a : Option Args)
    (er : Option InvalidFieldError) (sf : Option SchemaField) (data : JsValue) :
    mapScalars (.mk n a none er sf) data = some data := by
  rw [mapScalars]
  intro a1 a2 a3 a4 a5 he
  injection he with h1 h2 h3 h4 h5
  exact Option.noConfusion h3

theorem mapScalars_none_sf (n : String) (a : Option Args) (cs : List Field)
    (er : Option InvalidFieldError) (data : JsValue) :
    mapScalars (.mk n a (some cs) er none) data = some data := by
  rw [mapScalars]
  intro a1 a2 a3 a4 a5 he
  injection he with h1 h2 h3 h4 h5
  exact Option.noConfusion h5

theorem applyScalarDeser_preserves {nm kind : String} {d d2 : JsValue}
    {k : String} {w : JsValue} (hnull : w.isUndef = true ∨ w.isNull = true)
    (hd : d.get k = w) (h : applyScalarDeser nm kind d = some d2) :
    d2.get k = w := by
  unfold applyScalarDeser at h
  cases hpa : propAccess d nm with
  | none => rw [hpa] at h; exact Option.noConfusion h
  | some cur =>
    simp only [hpa] at h
    by_cases hg : (cur.isUndef || cur.isNull) = true
    · rw [if_pos hg] at h
      injection h with h2
      subst h2
      exact hd
    · rw [if_neg hg] at h
      injection h with h2
      subst h2
      by_cases hnm : nm = k
      · subst hnm
        have hcur := propAccess_some hpa
        rw [hcur, hd] at hg
        exfalso
        rcases hnull with hn | hn <;> simp [hn] at hg
      · rw [get_updateEntry_ne hnm]
        exact hd

theorem mapScalars_preserves_nullish (f : Field) (data : JsValue) (k : String)
    (w r : JsValue) (hw : data.get k = w)
    (hnull : w.isUndef = true ∨ w.isNull = true)
    (hr : mapScalars f data = some r) : r.get k = w := by
  obtain ⟨n, a, ch, er, sf⟩ := f
  cases ch with
  | none =>
    rw [mapScalars_none_children] at hr
    injection hr with h
    subst h
    exact hw
  | some cs =>
    cases sf with
    | none =>
      rw [mapScalars_none_sf] at hr
      injection hr with h
      subst h
      exact hw
    | some s =>
      rw [mapScalars] at hr
      by_cases hg : (!data.truthy || !data.typeofObject) = true
      · rw [if_pos hg] at hr
        injection hr with h
        subst h
        exact hw
      · rw [if_neg hg] at hr
        refine foldl_invariant
          (fun md : Option JsValue => ∀ d, md = some d → JsValue.get d k = w)
          cs.attach _ (some data) ?_ ?_ r hr
        · intro d hdd
          injection hdd with h
          subst h
          exact hw
        · intro md pc hP d' hd'
          cases md with
          | none => exact Option.noConfusion hd'
          | some d =>
            have hd := hP d rfl
            simp only [] at hd'
            split at hd'
            · exact Option.noConfusion hd'
            · rename_i d2 heq1
              have hd2 : JsValue.get d2 k = w := by
                split at heq1
                · split at heq1
                  · split at heq1
                    · split at heq1
                      · obtain ⟨l', hml, hfl⟩ := Option.map_eq_some'.mp heq1
                        subst hfl
                        exact hd
                      · exact applyScalarDeser_preserves hnull hd heq1
                    · injection heq1 with hh
                      subst hh
                      exact hd
                  · injection heq1 with hh
                    subst hh
                    exact hd
                · injection heq1 with hh
                  subst hh
                  exact hd
              split at hd'
              · split at hd'
                · split at hd'
                  · obtain ⟨l', hml, hfl⟩ := Option.map_eq_some'.mp hd'
                    subst hfl
                    exact hd2
                  · split at hd'
                    · exact Option.noConfusion hd'
                    · rename_i cur hpa
                      obtain ⟨r', hmr, hfl⟩ := Option.map_eq_some'.mp hd'
                      subst hfl
                      by_cases hnm : (pc.1 : Field).name = k
                      · subst hnm
                        have h1 := propAccess_some hpa
                        rw [hd2] at h1
                        subst h1
                        rw [mapScalars_guard _ _
                          (Or.inl (nullish_not_truthy hnull))] at hmr
                        injection hmr with hh
                        subst hh
                        exact get_updateEntry_const hd2
                      · rw [get_updateEntry_ne hnm]
                        exact hd2
                · injection hd' with hh
                  subst hh
                  exact hd2
              · injection hd' with hh
                subst hh
                exact hd2

theorem mapScalars_inert (n : String) (a : Option Args) (cs : List Field)
    (er : Option InvalidFieldError) (sf : SchemaField) (data : JsValue)
    (h : inertChildren cs = true) :
    mapScalars (.mk n a (some cs) er (some sf)) data = some data := by
  rw [mapScalars]
  by_cases hg : (!data.truthy || !data.typeofObject) = true
  · rw [if_pos hg]
  · rw [if_neg hg]
    refine foldl_invariant (fun md : Option JsValue => md = some data)
      cs.attach _ (some data) rfl ?_
    intro md pc hPm
    subst hPm
    have hin := (List.all_eq_true.mp h) pc.1 pc.2
    simp only [Bool.and_eq_true, Bool.not_eq_true'] at hin
    rcases hsf2 : (pc.1 : Field).schemaField with _ | csf
    · simp [hsf2]
    · rcases hstr : csf.outType.strName with _ | tname
      · have hloc : ¬(csf.location = .outputObjectTypes) := by
          have h2 := hin.2
          simp only [childDescends, hsf2] at h2
          simpa using h2
        simp [hsf2, hstr, hloc]
      · have hloc : ¬(csf.location = .outputObjectTypes) := by
          have h2 := hin.2
          simp only [childDescends, hsf2] at h2
          simpa using h2
        have hw2 : isWirePrimitive tname = false := by
          have h1 := hin.1
          simp only [childWire, hsf2, hstr] at h1
          exact h1
        simp [hsf2, hstr, hw2, hloc]

def wireChildC10 : Field :=
  .mk "d" none none none (some (.mk "d" [] false .scalar none (.scalarName "DateTime")))

def wireParentC10 : Field :=
  .mk "user" none (some [wireChildC10]) none
    (some (.mk "user" [] false .outputObjectTypes none (.objT (.mk "User" []))))

def objChildC10 : Field :=
  .mk "posts" none (some []) none
    (some (.mk "posts" [] true .outputObjectTypes none (.objT (.mk "Post" []))))

def objParentC10 : Field :=
  .mk "user" none (some [objChildC10]) none
    (some (.mk "user" [] false .outputObjectTypes none (.objT (.mk "User" []))))

theorem mapScalars_descend_crash :
    mapScalars objParentC10 (.list [.undef]) = none := by
  rw [objParentC10, mapScalars]
  simp [List.attach, List.attachWith, List.pmap, JsValue.truthy,
    JsValue.typeofObject, objChildC10, Field.schemaField, SchemaField.outType,
    OutTy.strName, Field.name, SchemaField.location, List.mapM,
    List.mapM.loop, propAccess]

/-- C10 amended: the result scalar remapper leaves any falsy or non-object
payload unchanged (first conjunct), leaves every `undefined` or `null`
leaf untouched by the whole walk (second conjunct), and changes nothing at
all when no child carries a wire-primitive kind or descends into nested
objects (third conjunct) — but, contrary to the claim, it does not always
complete without failing: a `null`/`undefined` record inside an array
position throws a `TypeError` on the property read, modelled as `none`
(fourth conjunct). -/
theorem claim10_mapScalars :
    (∀ (f : Field) (v : JsValue),
        v.truthy = false ∨ v.typeofObject = false → mapScalars f v = some v) ∧
    (∀ (f : Field) (data : JsValue) (k : String) (w r : JsValue),
        data.get k = w → (w.isUndef = true ∨ w.isNull = true) →
        mapScalars f data = some r → r.get k = w) ∧
    (∀ (n : String) (a : Option Args) (cs : List Field)
        (er : Option InvalidFieldError) (sf : SchemaField) (data : JsValue),
        inertChildren cs = true →
        mapScalars (.mk n a (some cs) er (some sf)) data = some data) ∧
    mapScalars objParentC10 (.list [.undef]) = none :=
  ⟨mapScalars_guard, mapScalars_preserves_nullish, mapScalars_inert,
    mapScalars_descend_crash⟩

/-- Counterexample to C10 as stated: a response array holding a `null`
record makes the remapper throw (the property read of the wire-kind child
name on `null`), modelled as `none` rather than a completed payload. -/
theorem claim10_counterexample :
    mapScalars wireParentC10 (.list [.null]) = none := by
  rw [wireParentC10, mapScalars]
  simp [List.attach, List.attachWith, List.pmap, JsValue.truthy,
    JsValue.typeofObject, wireChildC10, Field.schemaField, SchemaField.outType,
    OutTy.strName, Field.name, isWirePrimitive, List.mapM, List.mapM.loop,
    applyScalarDeser, propAccess]

def inertFieldC10 : Field :=
  .mk "q" none (some []) none
    (some (.mk "q" [] false .scalar none (.scalarName "Int")))

/-- Witness for C10 at concrete inputs: a `null` payload passes through, a
childless field maps a number to itself, and a `null` leaf of an object is
untouched. -/
theorem claim10_witness :
    mapScalars wireParentC10 .null = some .null ∧
    mapScalars inertFieldC10 (.int 5) = some (.int 5) ∧
    (JsValue.obj [("x", .null)]).get "x" = .null :=
  ⟨claim10_mapScalars.1 wireParentC10 .null (Or.inl rfl),
   claim10_mapScalars.2.2.1 "q" none [] none
     (.mk "q" [] false .scalar none (.scalarName "Int")) (.int 5) rfl,
   claim10_mapScalars.2.1 inertFieldC10 (.obj [("x", .null)]) "x" .null
     (.obj [("x", .null)]) rfl (Or.inr rfl)
     (claim10_mapScalars.2.2.1 "q" none [] none
       (.mk "q" [] false .scalar none (.scalarName "Int"))
       (.obj [("x", .null)]) rfl)⟩

/-! ### C2: union resolution and candidate scoring -/

/-- The failing candidates the loop of `valueToArg` accumulates, one per
declared union member whose compilation produced an `Arg`. -/
def unionCandidates (scoreLt : Cand → Cand → Bool) (key : String)
    (value : JsValue) (arg : SchemaArg) (ctx : MakeDocumentContext)
    (ts : List SchemaArgInputType) : List Cand :=
  ts.filterMap fun t =>
    match tryInferArgs scoreLt key value arg t ctx with
    | some a => some (Cand.mk a a.collectErrors)
    | none => none

/-- The head of the list, when there is one, scores no higher than any
member. -/
def HeadMin (l : List Cand) : Prop :=
  ∀ c, l.head? = some c → ∀ d ∈ l, candScore c ≤ candScore d

theorem mem_insertByLt_intro {lt : Cand → Cand → Bool} {c d : Cand}
    {l : List Cand} (h : d = c ∨ d ∈ l) : d ∈ insertByLt lt c l := by
  induction l with
  | nil =>
    rcases h with h | h
    · subst h
      simp [insertByLt]
    · cases h
  | cons e es ih =>
    unfold insertByLt
    split_ifs
    · rcases h with h | h
      · subst h
        exact List.mem_cons_self _ _
      · exact List.mem_cons.mpr (Or.inr h)
    · rcases h with h | h
      · exact List.mem_cons.mpr (Or.inr (ih (Or.inl h)))
      · rcases List.mem_cons.mp h with h2 | h2
        · exact List.mem_cons.mpr (Or.inl h2)
        · exact List.mem_cons.mpr (Or.inr (ih (Or.inr h2)))

theorem mem_foldl_insertByLt_intro {lt : Cand → Cand → Bool} {d : Cand} :
    ∀ {l acc : List Cand}, (d ∈ acc ∨ d ∈ l) →
      d ∈ l.foldl (fun a c => insertByLt lt c a) acc := by
  intro l
  induction l with
  | nil =>
    intro acc h
    rcases h with h | h
    · exact h
    · cases h
  | cons x xs ih =>
    intro acc h
    simp only [List.foldl_cons]
    rcases h with hacc | hl
    · exact ih (Or.inl (mem_insertByLt_intro (Or.inr hacc)))
    · rcases List.mem_cons.mp hl with h2 | h2
      · exact ih (Or.inl (mem_insertByLt_intro (Or.inl h2)))
      · exact ih (Or.inr h2)

theorem headMin_insert {lt : Cand → Cand → Bool} (hf : ScoreLtFaithful lt)
    {c : Cand} {l : List Cand} (h : HeadMin l) :
    HeadMin (insertByLt lt c l) := by
  cases l with
  | nil =>
    intro c' hc' d hd
    simp only [insertByLt, List.head?] at hc'
    injection hc' with hc'
    subst hc'
    simp only [insertByLt, List.mem_singleton] at hd
    subst hd
    exact le_refl _
  | cons e es =>
    intro c' hc' d hd
    unfold insertByLt at hc' hd
    split_ifs at hc' hd with hlt
    · injection hc' with hh
      subst hh
      have hce : candScore c < candScore e := (hf _ _).mp hlt
      rcases List.mem_cons.mp hd with h1 | h1
      · subst h1
        exact le_refl _
      · have := h e rfl d h1
        linarith
    · injection hc' with hh
      subst hh
      have hle : candScore e ≤ candScore c := by
        by_contra hlt2
        push_neg at hlt2
        exact hlt ((hf _ _).mpr hlt2)
      rcases List.mem_cons.mp hd with h1 | h1
      · subst h1
        exact le_refl _
      · rcases mem_insertByLt h1 with h2 | h2
        · subst h2
          exact hle
        · exact h e rfl d (List.mem_cons.mpr (Or.inr h2))

theorem sortByLt_headMin {lt : Cand → Cand → Bool} (hf : ScoreLtFaithful lt)
    (l : List Cand) : HeadMin (sortByLt lt l) := by
  unfold sortByLt
  refine foldl_invariant HeadMin l _ [] ?_ ?_
  · intro c hc d hd
    cases hc
  · intro acc c hacc
    exact headMin_insert hf hacc

theorem pickLowest_min {lt : Cand → Cand → Bool} (hf : ScoreLtFaithful lt)
    {l : List Cand} {c : Cand} (h : pickLowest lt l = some c) :
    c ∈ l ∧ ∀ d ∈ l, candScore c ≤ candScore d := by
  unfold pickLowest at h
  constructor
  · have hc : c ∈ sortByLt lt l := by
      cases hs : sortByLt lt l with
      | nil => rw [hs] at h; cases h
      | cons x xs =>
        rw [hs] at h
        injection h with h
        subst h
        exact List.mem_cons_self _ _
    rcases mem_foldl_insertByLt hc with h1 | h1
    · cases h1
    · exact h1
  · intro d hd
    exact sortByLt_headMin hf l c h d (mem_foldl_insertByLt_intro (Or.inr hd))

theorem hasError_of_collect_ne {a : Arg} (h : a.collectErrors ≠ []) :
    a.hasError = true := by
  by_contra hc
  apply h
  obtain ⟨key, value, isEnum, error, sa, it⟩ := a
  simp only [Bool.not_eq_true] at hc
  rw [Arg.collectErrors.eq_def]
  simp [hc]

theorem valueToArgLoop_first_clean {scoreLt : Cand → Cand → Bool}
    {key : String} {value : JsValue} {arg : SchemaArg}
    {ctx : MakeDocumentContext} {a : Arg} :
    ∀ (ts₁ : List SchemaArgInputType) (t : SchemaArgInputType)
      (ts₂ : List SchemaArgInputType) (m : Option Arg) (acc : List Cand),
      (∀ t' ∈ ts₁, ∀ a', tryInferArgs scoreLt key value arg t' ctx = some a' →
        a'.collectErrors ≠ []) →
      tryInferArgs scoreLt key value arg t ctx = some a →
      a.collectErrors = [] →
      valueToArgLoop scoreLt key value arg ctx (ts₁ ++ t :: ts₂) m acc
        = some a := by
  intro ts₁
  induction ts₁ with
  | nil =>
    intro t ts₂ m acc _ ht ha
    rw [List.nil_append, valueToArgLoop, ht]
    simp [ha]
  | cons t₁ rest ih =>
    intro t ts₂ m acc hall ht ha
    rw [List.cons_append, valueToArgLoop]
    cases h1 : tryInferArgs scoreLt key value arg t₁ ctx with
    | none =>
      exact ih t ts₂ none acc
        (fun t' ht' => hall t' (List.mem_cons.mpr (Or.inr ht'))) ht ha
    | some a₁ =>
      have hne := hall t₁ (List.mem_cons_self _ _) a₁ h1
      dsimp only []
      rw [if_neg (fun h0 => hne (List.length_eq_zero.mp h0))]
      exact ih t ts₂ (some a₁) (acc ++ [⟨a₁, a₁.collectErrors⟩])
        (fun t' ht' => hall t' (List.mem_cons.mpr (Or.inr ht'))) ht ha

theorem valueToArgLoop_all_fail {scoreLt : Cand → Cand → Bool}
    {key : String} {value : JsValue} {arg : SchemaArg}
    {ctx : MakeDocumentContext} :
    ∀ (ts : List SchemaArgInputType) (m : Option Arg) (acc : List Cand),
      ts ≠ [] →
      (∀ t' ∈ ts, ∃ a', tryInferArgs scoreLt key value arg t' ctx = some a' ∧
        a'.collectErrors ≠ []) →
      ∃ c, pickLowest scoreLt
          (acc ++ unionCandidates scoreLt key value arg ctx ts) = some c ∧
        valueToArgLoop scoreLt key value arg ctx ts m acc = some c.arg := by
  intro ts
  induction ts with
  | nil => intro m acc h _; exact absurd rfl h
  | cons t rest ih =>
    intro m acc _ hall
    obtain ⟨a, ha, hne⟩ := hall t (List.mem_cons_self _ _)
    have hu : unionCandidates scoreLt key value arg ctx (t :: rest)
        = Cand.mk a a.collectErrors
          :: unionCandidates scoreLt key value arg ctx rest := by
      unfold unionCandidates
      rw [List.filterMap_cons]
      simp [ha]
    rw [valueToArgLoop, ha]
    dsimp only []
    rw [if_neg (fun h0 => hne (List.length_eq_zero.mp h0))]
    cases rest with
    | nil =>
      rw [valueToArgLoop]
      have hHasErr := hasError_of_collect_ne hne
      obtain ⟨c, hc, hpick⟩ := @pickLowest_mem scoreLt
        (acc ++ [Cand.mk a a.collectErrors]) (by simp)
      refine ⟨c, ?_, ?_⟩
      · rw [hu]
        simpa using hpick
      · simp only [hHasErr, Bool.true_and]
        rw [show ((acc ++ [(⟨a, a.collectErrors⟩ : Cand)]).length != 0) = true
          from by simp]
        rw [hpick]
        rfl
    | cons t₂ rest₂ =>
      obtain ⟨c, hpick, hloop⟩ := ih (some a)
        (acc ++ [Cand.mk a a.collectErrors]) (by simp)
        (fun t' ht' => hall t' (List.mem_cons.mpr (Or.inr ht')))
      refine ⟨c, ?_, hloop⟩
      rw [hu]
      simpa [List.append_assoc] using hpick

theorem errorScore_eq_claim (cand : Arg) (e : ArgErrorRec) :
    errorScore cand e = claimErrorScore cand e := by
  unfold errorScore claimErrorScore
  obtain ⟨path, err, id⟩ := e
  cases err <;> try norm_num
  case missingArg =>
    rcases hit : cand.inputType with _ | ⟨il2, loc2, ty2⟩
    · simp only [hit]
      norm_num
    · simp only [hit, SchemaArgInputType.type]
      cases ty2 <;> try norm_num
      case inputT t => split_ifs <;> ring
  case invalidName => split_ifs <;> ring

theorem candScore_eq_claimScore (c : Cand) : candScore c = claimScore c := by
  unfold candScore claimScore
  rw [show errorScore c.arg = claimErrorScore c.arg from
    funext (errorScore_eq_claim c.arg)]

/-- C2: with a faithful comparison oracle, the union loop returns the
first candidate (in declaration order) whose compiled `Arg` collects no
errors (first conjunct); when every union member fails, it returns the
argument of a lowest-scoring accumulated candidate (second conjunct); and
the code's per-error and per-candidate scores equal the claim's formula:
`2·e^depth + 1` for a type mismatch, otherwise `1`, plus `ln(path
length)`, the whole doubled for missing-argument/unknown-name errors of an
`Unchecked` input type, summed and added to the error count (third and
fourth conjuncts). -/
theorem claim2_union_resolution (scoreLt : Cand → Cand → Bool)
    (hf : ScoreLtFaithful scoreLt) (key : String) (value : JsValue)
    (arg : SchemaArg) (ctx : MakeDocumentContext)
    (hv : value.isUndef = false) :
    (∀ (ts₁ : List SchemaArgInputType) (t : SchemaArgInputType)
        (ts₂ : List SchemaArgInputType) (a : Arg),
      arg.inputTypes = ts₁ ++ t :: ts₂ →
      (∀ t' ∈ ts₁, ∀ a', tryInferArgs scoreLt key value arg t' ctx = some a' →
        a'.collectErrors ≠ []) →
      tryInferArgs scoreLt key value arg t ctx = some a →
      a.collectErrors = [] →
      valueToArg scoreLt key value arg ctx = some a) ∧
    (arg.inputTypes ≠ [] →
      (∀ t' ∈ arg.inputTypes, ∃ a',
        tryInferArgs scoreLt key value arg t' ctx = some a' ∧
        a'.collectErrors ≠ []) →
      ∃ c ∈ unionCandidates scoreLt key value arg ctx arg.inputTypes,
        valueToArg scoreLt key value arg ctx = some c.arg ∧
        ∀ d ∈ unionCandidates scoreLt key value arg ctx arg.inputTypes,
          candScore c ≤ candScore d) ∧
    (∀ (cand : Arg) (e : ArgErrorRec),
      errorScore cand e = claimErrorScore cand e) ∧
    (∀ c : Cand, candScore c = claimScore c) := by
  have hload : valueToArg scoreLt key value arg ctx
      = valueToArgLoop scoreLt key value arg ctx arg.inputTypes none [] := by
    rw [valueToArg]
    simp [hv]
  refine ⟨?_, ?_, errorScore_eq_claim, candScore_eq_claimScore⟩
  · intro ts₁ t ts₂ a heq hall ht ha
    rw [hload, heq]
    exact valueToArgLoop_first_clean ts₁ t ts₂ none [] hall ht ha
  · intro hne hall
    obtain ⟨c, hpick, hloop⟩ :=
      valueToArgLoop_all_fail arg.inputTypes none [] hne hall
    rw [List.nil_append] at hpick
    obtain ⟨hmem, hmin⟩ := pickLowest_min hf hpick
    exact ⟨c, hmem, by rw [hload]; exact hloop, hmin⟩

/-- A comparison oracle defined classically from the real scores; it is
faithful by construction. -/
noncomputable def scoreLtReal : Cand → Cand → Bool :=
  fun a b => decide (candScore a < candScore b)

theorem scoreLtReal_faithful : ScoreLtFaithful scoreLtReal := by
  intro a b
  unfold scoreLtReal
  simp

def tIntC2 : SchemaArgInputType := .mk false .scalar (.scalarT "Int")

def argC2 : SchemaArg := .mk "x" false false [tIntC2]

def aC2 : Arg := .mk "x" (.raw (.int 5)) false none (some argC2) (some tIntC2)

theorem tryInferArgs_intC2 :
    tryInferArgs scoreLtReal "x" (.int 5) argC2 tIntC2 ⟨none⟩ = some aC2 := by
  rw [tryInferArgs]
  simp [JsValue.isUndef, JsValue.isNull, argC2, SchemaArg.isRequired,
    SchemaArg.isNullable, tIntC2, SchemaArgInputType.isList,
    SchemaArgInputType.type, SchemaArgInputType.location, scalarToArg,
    Arg.make, aC2, show hasCorrectScalarType (.int 5)
        (.mk false .scalar (.scalarT "Int")) ⟨none⟩ = true from by decide]

theorem collect_aC2 : aC2.collectErrors = [] := by
  rw [aC2, Arg.collectErrors.eq_def]
  simp [Arg.hasError, ArgValue.anyError]

/-- Witness for C2: a faithful classical oracle exists; at a singleton
`Int` union, `5` compiles cleanly and is returned directly; and the
code-side per-error score coincides with the claim's formula at a
concrete `missingArg` error record. -/
theorem claim2_witness :
    ScoreLtFaithful scoreLtReal ∧
    valueToArg scoreLtReal "x" (.int 5) argC2 ⟨none⟩ = some aC2 ∧
    errorScore aC2 ⟨[.str "x"], .missingArg "x" argC2 false false, none⟩
      = claimErrorScore aC2 ⟨[.str "x"], .missingArg "x" argC2 false false, none⟩ := by
  refine ⟨scoreLtReal_faithful, ?_, ?_⟩
  · exact (claim2_union_resolution scoreLtReal scoreLtReal_faithful "x"
      (.int 5) argC2 ⟨none⟩ rfl).1 [] tIntC2 [] aC2 rfl
      (by intro t' ht'; cases ht') tryInferArgs_intC2 collect_aC2
  · exact (claim2_union_resolution scoreLtReal scoreLtReal_faithful "x"
      (.int 5) argC2 ⟨none⟩ rfl).2.2.1 aC2
      ⟨[.str "x"], .missingArg "x" argC2 false false, none⟩

end Query
